import Mathlib

/-!
Shallow embedding of the exact-diagonalization notebook for the
transverse-field Ising ring (file src/Example.ipynb).

Integers are embedded as Lean naturals (Python integers are unbounded and
all states lie in [0, 2^L)); real amplitudes as Lean reals; the complex
matrix values as Lean complexes with Complex.exp and Real.sqrt standing
for np.exp and np.sqrt (exact complex arithmetic).

Definitions mirror the source functions, keeping the source names
(including the FilpBit typo).  Lists mirror Python lists, List.foldl the
accumulation loops, and an association list the per-sector pos dict.
-/

/-- Number of 1-digits in the binary representation of i (CountBit). -/
def CountBit (i : ℕ) : ℕ :=
  if h : i = 0 then 0 else i % 2 + CountBit (i / 2)
decreasing_by exact Nat.div_lt_self (Nat.pos_of_ne_zero h) one_lt_two

/-- Flip the nth bit of a binary number (FilpBit, source spelling). -/
def FilpBit (i n : ℕ) : ℕ := i ^^^ (1 <<< n)

/-- Read the nth bit of a binary number (ReadBit). -/
def ReadBit (i n : ℕ) : ℕ := (i &&& (1 <<< n)) >>> n

/-- Read the value of an n-bit window starting from the kth bit (PickBit). -/
def PickBit (i k n : ℕ) : ℕ := (i &&& ((2 ^ n - 1) <<< k)) >>> k

/-- Cyclic left rotation of the L-bit word i by n positions (RotLBit). -/
def RotLBit (i L n : ℕ) : ℕ := (PickBit i 0 (L - n)) <<< n + (i >>> (L - n))

/-- Cyclic right rotation of the L-bit word i by n positions (RotRBit). -/
def RotRBit (i L n : ℕ) : ℕ := (PickBit i 0 n) <<< (L - n) + (i >>> n)

/-- Minimum of a list of naturals, as Python min over a nonempty list. -/
def listMin : List ℕ → ℕ
  | [] => 0
  | a :: l => List.foldl min a l

/-- The L+1 rotations of n computed inline by BuildBasisNk and BuildHNk. -/
def Tlist (L n : ℕ) : List ℕ := (List.range (L + 1)).map (fun i => RotLBit n L i)

/-- The representative m of n: min(Tlist), as computed in the source. -/
def repOf (L n : ℕ) : ℕ := listMin (Tlist L n)

/-- The period R of n: Tlist[1:].index(n) + 1, as computed in the source. -/
def periodOf (L n : ℕ) : ℕ := ((Tlist L n).drop 1).indexOf n + 1

/-- The rotation distance d: Tlist.index(m_rs), as computed in BuildHNk. -/
def distOf (L n : ℕ) : ℕ := (Tlist L n).indexOf (repOf L n)

/-- Result of the Hamiltonian acting on basis state n (ActingH). -/
noncomputable def ActingH (n L : ℕ) (J g : ℝ) : List (ℕ × ℝ) :=
  let ising := (List.range L).map (fun i => (i, (i + 1) % L))
  let flips := (List.range L).map (fun i => (n ^^^ (1 <<< i), -J * g))
  let diag : ℝ :=
    (ising.map (fun p => if ReadBit n p.1 = ReadBit n p.2 then -J else J)).sum
  flips ++ [(n, diag)]

/-- All N-site basis states 0, 1, ..., 2^L - 1 (BuildBasisN). -/
def BuildBasisN (L : ℕ) : List ℕ := List.range (2 ^ L)

/-- Basis of the fixed-momentum sector k: representatives n with
min(Tlist) == n and (k * R) mod L == 0, in ascending enumeration order
(BuildBasisNk). -/
def BuildBasisNk (L k : ℕ) : List ℕ :=
  (BuildBasisN L).filter (fun n => repOf L n == n && (k * periodOf L n) % L == 0)

/-- Accumulator state of BuildHNk: the three triplet lists and the pos
dict (an association list from (col, row) pairs to triplet indices). -/
structure HState where
  cols : List ℕ
  rows : List ℕ
  vals : List ℂ
  pos : List ((ℕ × ℕ) × ℕ)

/-- One inner-loop step of BuildHNk, processing one (m, h) pair emitted by
ActingH for the basis state n. -/
noncomputable def HStep (L k : ℕ) (basis : List ℕ) (n : ℕ) (st : HState)
    (mh : ℕ × ℝ) : HState :=
  let b := basis.indexOf n
  let m := mh.1
  let h := mh.2
  let m_rs := repOf L m
  let Rm := periodOf L m
  let d := distOf L m
  let Rn := periodOf L n
  if m_rs ∈ basis then
    let a := basis.indexOf m_rs
    let w : ℂ := (h : ℂ) * Complex.exp (Complex.I * k * d * 2 * Real.pi / L) *
      Real.sqrt Rn / Real.sqrt Rm
    if st.pos.lookup (a, b) = none then
      ⟨st.cols ++ [a], st.rows ++ [b], st.vals ++ [w],
        st.pos ++ [((a, b), st.cols.length)]⟩
    else
      let i := (st.pos.lookup (a, b)).getD 0
      ⟨st.cols, st.rows, st.vals.set i (st.vals.getD i 0 + w), st.pos⟩
  else st

/-- The value returned by BuildHNk: column indices, row indices, complex
values, dimension, and the sector basis. -/
structure HNk where
  cols : List ℕ
  rows : List ℕ
  vals : List ℂ
  dim : ℕ
  basis : List ℕ

/-- Sparse assembly of the sector-k Hamiltonian matrix (BuildHNk). -/
noncomputable def BuildHNk (L k : ℕ) (J g : ℝ) : HNk :=
  let basis := BuildBasisNk L k
  let st := basis.foldl
    (fun st n => (ActingH n L J g).foldl (HStep L k basis n) st)
    ⟨[], [], [], []⟩
  ⟨st.cols, st.rows, st.vals, basis.length, basis⟩

/-- Accumulated matrix entry of an assembled sector at (row, col): the sum
of the triplet values recorded there (zero when no triplet is present). -/
noncomputable def accEntry (res : HNk) (r c : ℕ) : ℂ :=
  ∑ j in Finset.range res.vals.length,
    if res.rows.getD j 0 = r ∧ res.cols.getD j 0 = c then res.vals.getD j 0 else 0

/-- Number of triplets recorded at (row, col). -/
def tripletCount (res : HNk) (r c : ℕ) : ℕ := (res.rows.zip res.cols).count (r, c)

/-- Minimum of the L cyclic left-rotations of n, the representative in the
wording of the specification. -/
def minRotL (L n : ℕ) : ℕ := listMin ((List.range L).map (fun i => RotLBit n L i))

/-- The diagonal Ising sum emitted by ActingH for state n. -/
noncomputable def isingDiag (n L : ℕ) (J : ℝ) : ℝ :=
  ((List.range L).map
    (fun i => if ReadBit n i = ReadBit n ((i + 1) % L) then -J else J)).sum

/-- The complex phase factor exp(1j * k * s * 2 * pi / L) of BuildHNk. -/
noncomputable def phase (L k s : ℕ) : ℂ :=
  Complex.exp (Complex.I * k * s * 2 * Real.pi / L)

/-- Total real amplitude with which ActingH sends state y to state x. -/
noncomputable def ampl (L : ℕ) (J g : ℝ) (x y : ℕ) : ℝ :=
  (((ActingH y L J g).filter (fun mh => mh.1 == x)).map Prod.snd).sum

/-- Symmetrized double sum used to analyse the sector matrix entries. -/
noncomputable def symSum (L k : ℕ) (J g : ℝ) (x y : ℕ) : ℂ :=
  ∑ s in Finset.range L, phase L k s * (ampl L J g (RotLBit x L (L - s)) y : ℂ)

/-- The (col, row) target cell of one contribution of BuildHNk, when the
representative of the target state lies in the sector basis. -/
def keyOf (L : ℕ) (basis : List ℕ) (c : ℕ × ℕ × ℝ) : Option (ℕ × ℕ) :=
  if repOf L c.2.1 ∈ basis
  then some (basis.indexOf (repOf L c.2.1), basis.indexOf c.1)
  else none

/-- The complex weight of one contribution of BuildHNk. -/
noncomputable def wOf (L k : ℕ) (c : ℕ × ℕ × ℝ) : ℂ :=
  (c.2.2 : ℂ) * Complex.exp (Complex.I * k * (distOf L c.2.1) * 2 * Real.pi / L) *
    Real.sqrt (periodOf L c.1) / Real.sqrt (periodOf L c.2.1)

/-- The flattened list of contributions processed by BuildHNk, in loop
order: for each basis state n, each (m, h) pair of ActingH n. -/
noncomputable def contribList (L : ℕ) (J g : ℝ) (basis : List ℕ) :
    List (ℕ × ℕ × ℝ) :=
  (basis.map (fun n => (ActingH n L J g).map (fun mh => (n, mh)))).flatten

/-- Rotation with exponent reduced modulo L, for orbit arithmetic. -/
def rotMod (L u n : ℕ) : ℕ := RotLBit n L (u % L)

/-- Invariant tying an accumulator state of BuildHNk to the list P of
contributions processed so far: the triplets are indexed by a duplicate-free
list of (col, row) keys in creation order, the pos dict maps each key to its
index, the recorded keys are exactly the targets hit by P, and each stored
value is the sum of the weights of the contributions hitting its key. -/
def HInv (L k : ℕ) (basis : List ℕ) (P : List (ℕ × ℕ × ℝ)) (st : HState) : Prop :=
  ∃ keys : List (ℕ × ℕ),
    keys.Nodup ∧
    st.cols = keys.map Prod.fst ∧
    st.rows = keys.map Prod.snd ∧
    st.vals.length = keys.length ∧
    st.pos = keys.zip (List.range keys.length) ∧
    (∀ key, key ∈ keys ↔ some key ∈ P.map (keyOf L basis)) ∧
    (∀ j, j < keys.length →
      st.vals.getD j 0 =
        ((P.filter (fun c => keyOf L basis c = some (keys.getD j (0, 0)))).map
          (wOf L k)).sum)

theorem countBit_rec (i : ℕ) : CountBit i = i % 2 + CountBit (i / 2) := by
  rcases eq_or_ne i 0 with h | h
  · subst h
    simp [CountBit]
  · rw [CountBit]; simp [h]

theorem and_two_pow_eq (i n : ℕ) : i &&& 2 ^ n = if i.testBit n then 2 ^ n else 0 := by
  apply Nat.eq_of_testBit_eq
  intro j
  by_cases hj : n = j
  · subst hj
    by_cases h : i.testBit n <;> simp [Nat.testBit_and, Nat.testBit_two_pow, h]
  · by_cases h : i.testBit n <;>
      simp [Nat.testBit_and, Nat.testBit_two_pow, h, hj]

theorem readBit_eq (i n : ℕ) : ReadBit i n = if i.testBit n then 1 else 0 := by
  rw [ReadBit, Nat.one_shiftLeft, and_two_pow_eq, Nat.shiftRight_eq_div_pow]
  by_cases h : i.testBit n <;>
    simp [h, Nat.div_self (Nat.two_pow_pos n)]

theorem readBit_eq_iff (a b i j : ℕ) :
    ReadBit a i = ReadBit b j ↔ a.testBit i = b.testBit j := by
  rw [readBit_eq, readBit_eq]
  by_cases h1 : a.testBit i <;> by_cases h2 : b.testBit j <;> simp [h1, h2]

theorem pickBit_eq (i k n : ℕ) : PickBit i k n = (i >>> k) % 2 ^ n := by
  apply Nat.eq_of_testBit_eq
  intro j
  rw [PickBit]
  simp only [Nat.testBit_shiftRight, Nat.testBit_and, Nat.testBit_shiftLeft,
    Nat.testBit_mod_two_pow, Nat.testBit_two_pow_sub_one]
  have h : k + j - k = j := by omega
  have h2 : k + j ≥ k := by omega
  simp [h, h2, Bool.and_comm]

theorem rotL_arith (i L s : ℕ) :
    RotLBit i L s = (i % 2 ^ (L - s)) * 2 ^ s + i / 2 ^ (L - s) := by
  rw [RotLBit, pickBit_eq, Nat.shiftLeft_eq, Nat.shiftRight_eq_div_pow,
    Nat.shiftRight_eq_div_pow]
  norm_num

theorem rotL_lt (i L s : ℕ) (hi : i < 2 ^ L) (hs : s ≤ L) : RotLBit i L s < 2 ^ L := by
  rw [rotL_arith]
  have h1 : i % 2 ^ (L - s) < 2 ^ (L - s) := Nat.mod_lt _ (Nat.two_pow_pos _)
  have h2 : i / 2 ^ (L - s) < 2 ^ s := by
    rw [Nat.div_lt_iff_lt_mul (Nat.two_pow_pos _)]
    calc i < 2 ^ L := hi
      _ = 2 ^ s * 2 ^ (L - s) := by rw [← pow_add]; congr 1; omega
  calc (i % 2 ^ (L - s)) * 2 ^ s + i / 2 ^ (L - s)
      < (i % 2 ^ (L - s)) * 2 ^ s + 2 ^ s := by omega
    _ = (i % 2 ^ (L - s) + 1) * 2 ^ s := by ring
    _ ≤ 2 ^ (L - s) * 2 ^ s := Nat.mul_le_mul_right _ h1
    _ = 2 ^ L := by rw [← pow_add]; congr 1; omega

theorem rotL_testBit (i L s j : ℕ) (hi : i < 2 ^ L) (hs : s ≤ L) (hj : j < L) :
    (RotLBit i L s).testBit j = i.testBit ((j + (L - s)) % L) := by
  have hd : i / 2 ^ (L - s) < 2 ^ s := by
    rw [Nat.div_lt_iff_lt_mul (Nat.two_pow_pos _)]
    calc i < 2 ^ L := hi
      _ = 2 ^ s * 2 ^ (L - s) := by rw [← pow_add]; congr 1; omega
  rw [rotL_arith, mul_comm, Nat.testBit_mul_pow_two_add _ hd]
  by_cases h : j < s
  · rw [if_pos h]
    rw [← Nat.shiftRight_eq_div_pow, Nat.testBit_shiftRight]
    congr 1
    have : j + (L - s) < L := by omega
    rw [Nat.mod_eq_of_lt this]
    omega
  · rw [if_neg h]
    rw [Nat.testBit_mod_two_pow]
    have h1 : j - s < L - s := by omega
    have h2 : j + (L - s) = (j - s) + L := by omega
    rw [h2, Nat.add_mod_right, Nat.mod_eq_of_lt (by omega : j - s < L)]
    simp [h1]

theorem bits_ext (w m n : ℕ) (hm : m < 2 ^ w) (hn : n < 2 ^ w)
    (h : ∀ j, j < w → m.testBit j = n.testBit j) : m = n := by
  apply Nat.eq_of_testBit_eq
  intro j
  by_cases hj : j < w
  · exact h j hj
  · have hw : (2 : ℕ) ^ w ≤ 2 ^ j := Nat.pow_le_pow_right (by norm_num) (by omega)
    rw [Nat.testBit_lt_two_pow (lt_of_lt_of_le hm hw),
      Nat.testBit_lt_two_pow (lt_of_lt_of_le hn hw)]

theorem rotL_zero (i L : ℕ) (hi : i < 2 ^ L) : RotLBit i L 0 = i := by
  rw [rotL_arith]
  simp [Nat.mod_eq_of_lt hi, Nat.div_eq_of_lt hi]

theorem rotL_full (i L : ℕ) : RotLBit i L L = i := by
  rw [rotL_arith]
  simp [Nat.mod_one]

theorem rotL_rotL (i L a b : ℕ) (hL : 0 < L) (hi : i < 2 ^ L) (ha : a ≤ L)
    (hb : b ≤ L) : RotLBit (RotLBit i L b) L a = RotLBit i L ((a + b) % L) := by
  have hb' : RotLBit i L b < 2 ^ L := rotL_lt i L b hi hb
  have hab : (a + b) % L < L := Nat.mod_lt _ hL
  apply bits_ext L _ _ (rotL_lt _ L a hb' ha) (rotL_lt i L _ hi (le_of_lt hab))
  intro j hj
  rw [rotL_testBit _ L a j hb' ha hj,
    rotL_testBit i L b _ hi hb (Nat.mod_lt _ hL),
    rotL_testBit i L _ j hi (le_of_lt hab) hj]
  congr 1
  rw [Nat.mod_add_mod]
  have hr : (a + b) % L < L := hab
  have e0 : j + (L - a) + (L - b) + (a + b) =
      j + (L - (a + b) % L) + ((a + b) % L) + L := by omega
  have e1 : (j + (L - a) + (L - b)) + (a + b) ≡
      (j + (L - (a + b) % L)) + ((a + b) % L) [MOD L] := by
    show (j + (L - a) + (L - b) + (a + b)) % L =
      (j + (L - (a + b) % L) + ((a + b) % L)) % L
    rw [e0, Nat.add_mod_right]
  exact Nat.ModEq.add_right_cancel ((Nat.mod_modEq (a + b) L).symm) e1

theorem rotMod_lt (L u n : ℕ) (hL : 0 < L) (hn : n < 2 ^ L) : rotMod L u n < 2 ^ L :=
  rotL_lt n L (u % L) hn (le_of_lt (Nat.mod_lt _ hL))

theorem rotMod_of_lt (L u n : ℕ) (hu : u < L) : rotMod L u n = RotLBit n L u := by
  rw [rotMod, Nat.mod_eq_of_lt hu]

theorem rotMod_zero (L n : ℕ) (hL : 0 < L) (hn : n < 2 ^ L) : rotMod L 0 n = n := by
  rw [rotMod, Nat.zero_mod]
  exact rotL_zero n L hn

theorem rotL_eq_rotMod (L s n : ℕ) (hL : 0 < L) (hn : n < 2 ^ L) (hs : s ≤ L) :
    RotLBit n L s = rotMod L s n := by
  rcases eq_or_lt_of_le hs with h | h
  · subst h
    rw [rotMod, Nat.mod_self, rotL_full]
    exact (rotL_zero _ _ hn).symm
  · rw [rotMod_of_lt L s n h]

theorem rotMod_add (L a b n : ℕ) (hL : 0 < L) (hn : n < 2 ^ L) :
    rotMod L a (rotMod L b n) = rotMod L (a + b) n := by
  rw [rotMod, rotMod, rotMod,
    rotL_rotL n L (a % L) (b % L) hL hn (le_of_lt (Nat.mod_lt _ hL))
      (le_of_lt (Nat.mod_lt _ hL))]
  exact congrArg (RotLBit n L) (Nat.add_mod a b L).symm

theorem rotMod_congr (L a b n : ℕ) (h : a % L = b % L) :
    rotMod L a n = rotMod L b n := by
  rw [rotMod, rotMod, h]

theorem rotMod_inv (L u n : ℕ) (hL : 0 < L) (hn : n < 2 ^ L) :
    rotMod L (L - u % L) (rotMod L u n) = n := by
  rw [rotMod_add L _ u n hL hn]
  have h1 : u % L < L := Nat.mod_lt _ hL
  have h2 : (L - u % L + u) % L = 0 % L := by
    have e : L - u % L + u = (L - u % L + u % L) + L * (u / L) := by
      have := Nat.mod_add_div u L
      omega
    rw [e]
    have e2 : L - u % L + u % L = L := by omega
    rw [e2, Nat.add_mul_mod_self_left, Nat.mod_self, Nat.zero_mod]
  rw [rotMod_congr L _ 0 n h2, rotMod_zero L n hL hn]

theorem rotMod_cancel (L a x y : ℕ) (hL : 0 < L) (hx : x < 2 ^ L) (hy : y < 2 ^ L)
    (h : rotMod L a x = rotMod L a y) : x = y := by
  have := congrArg (rotMod L (L - a % L)) h
  rwa [rotMod_inv L a x hL hx, rotMod_inv L a y hL hy] at this

theorem Tlist_length (L n : ℕ) : (Tlist L n).length = L + 1 := by
  simp [Tlist]

theorem Tlist_ne_nil (L n : ℕ) : Tlist L n ≠ [] := by
  intro h
  have := Tlist_length L n
  rw [h] at this
  simp at this

theorem Tlist_get (L n : ℕ) (j : ℕ) (hj : j < (Tlist L n).length) :
    (Tlist L n).get ⟨j, hj⟩ = RotLBit n L j := by
  simp [Tlist]

theorem mem_Tlist (L n x : ℕ) : x ∈ Tlist L n ↔ ∃ s, s ≤ L ∧ x = RotLBit n L s := by
  simp only [Tlist, List.mem_map, List.mem_range, Nat.lt_succ_iff]
  constructor
  · rintro ⟨s, hs, rfl⟩
    exact ⟨s, hs, rfl⟩
  · rintro ⟨s, hs, rfl⟩
    exact ⟨s, hs, rfl⟩

theorem foldl_min_le_init (a : ℕ) (l : List ℕ) : List.foldl min a l ≤ a := by
  induction l generalizing a with
  | nil => exact le_refl a
  | cons b t ih =>
      calc List.foldl min (min a b) t ≤ min a b := ih (min a b)
        _ ≤ a := min_le_left a b

theorem foldl_min_le_mem (a x : ℕ) (l : List ℕ) (hx : x ∈ l) :
    List.foldl min a l ≤ x := by
  induction l generalizing a with
  | nil => cases hx
  | cons b t ih =>
      rcases List.mem_cons.mp hx with h | h
      · subst h
        calc List.foldl min (min a x) t ≤ min a x := foldl_min_le_init _ t
          _ ≤ x := min_le_right a x
      · exact ih (min a b) h

theorem foldl_min_mem (a : ℕ) (l : List ℕ) : List.foldl min a l ∈ a :: l := by
  induction l generalizing a with
  | nil => simp
  | cons b t ih =>
      have h := ih (min a b)
      rw [List.foldl_cons]
      rcases List.mem_cons.mp h with h | h
      · rw [h]
        rcases min_cases a b with ⟨he, _⟩ | ⟨he, _⟩ <;> rw [he] <;> simp
      · exact List.mem_cons_of_mem a (List.mem_cons_of_mem b h)

theorem listMin_mem (l : List ℕ) (h : l ≠ []) : listMin l ∈ l := by
  cases l with
  | nil => exact absurd rfl h
  | cons a t => exact foldl_min_mem a t

theorem listMin_le (l : List ℕ) (x : ℕ) (hx : x ∈ l) : listMin l ≤ x := by
  cases l with
  | nil => cases hx
  | cons a t =>
      rcases List.mem_cons.mp hx with h | h
      · subst h
        exact foldl_min_le_init x t
      · exact foldl_min_le_mem a x t h

theorem repOf_mem (L n : ℕ) : repOf L n ∈ Tlist L n :=
  listMin_mem _ (Tlist_ne_nil L n)

theorem repOf_le (L n x : ℕ) (hx : x ∈ Tlist L n) : repOf L n ≤ x :=
  listMin_le _ x hx

theorem repOf_exists (L n : ℕ) : ∃ s, s ≤ L ∧ repOf L n = RotLBit n L s :=
  (mem_Tlist L n _).mp (repOf_mem L n)

theorem repOf_lt (L n : ℕ) (hn : n < 2 ^ L) : repOf L n < 2 ^ L := by
  obtain ⟨s, hs, he⟩ := repOf_exists L n
  rw [he]
  exact rotL_lt n L s hn hs

theorem repOf_le_self (L n : ℕ) (hn : n < 2 ^ L) : repOf L n ≤ n := by
  have h : n ∈ Tlist L n := by
    rw [mem_Tlist]
    exact ⟨0, Nat.zero_le L, (rotL_zero n L hn).symm⟩
  exact repOf_le L n n h

theorem indexOf_le_of_get (l : List ℕ) (a : ℕ) (j : ℕ) (hj : j < l.length)
    (h : l.get ⟨j, hj⟩ = a) : l.indexOf a ≤ j := by
  induction l generalizing j with
  | nil => simp at hj
  | cons b t ih =>
      cases j with
      | zero =>
          simp only [List.get] at h
          subst h
          simp [List.indexOf_cons_self]
      | succ j =>
          have hj2 : j < t.length := by simpa using hj
          have h2 : t.get ⟨j, hj2⟩ = a := h
          by_cases hb : b = a
          · rw [List.indexOf_cons_eq _ hb]
            exact Nat.zero_le _
          · rw [List.indexOf_cons_ne _ hb]
            have := ih j hj2 h2
            omega

theorem Tlist_drop_one (L n : ℕ) :
    (Tlist L n).drop 1 = (List.range L).map (fun j => RotLBit n L (j + 1)) := by
  rw [Tlist, List.range_succ_eq_map, List.map_cons, List.drop_one, List.tail_cons,
    List.map_map]
  rfl

theorem drop_one_Tlist_get (L n j : ℕ) (hj : j < ((Tlist L n).drop 1).length) :
    ((Tlist L n).drop 1).get ⟨j, hj⟩ = RotLBit n L (j + 1) := by
  rw [List.get_eq_getElem, List.getElem_of_eq (Tlist_drop_one L n)]
  simp

theorem mem_drop_one_Tlist (L n : ℕ) (hL : 0 < L) : n ∈ (Tlist L n).drop 1 := by
  rw [Tlist_drop_one]
  refine List.mem_map.mpr ⟨L - 1, List.mem_range.mpr (by omega), ?_⟩
  rw [(by omega : L - 1 + 1 = L)]
  exact rotL_full n L

theorem periodOf_pos (L n : ℕ) : 0 < periodOf L n := Nat.succ_pos _

theorem periodOf_le (L n : ℕ) (hL : 0 < L) : periodOf L n ≤ L := by
  have h := List.indexOf_lt_length.mpr (mem_drop_one_Tlist L n hL)
  have hlen : ((Tlist L n).drop 1).length = L := by
    rw [List.length_drop, Tlist_length]
    omega
  rw [periodOf]
  omega

theorem rotL_periodOf (L n : ℕ) (hL : 0 < L) : RotLBit n L (periodOf L n) = n := by
  have h := List.indexOf_lt_length.mpr (mem_drop_one_Tlist L n hL)
  have hg := List.indexOf_get h
  rw [drop_one_Tlist_get L n _ h] at hg
  rw [periodOf]
  exact hg

theorem periodOf_min (L n r : ℕ) (hL : 0 < L) (hr1 : 1 ≤ r)
    (hr2 : r < periodOf L n) : RotLBit n L r ≠ n := by
  intro h
  have hidx := List.indexOf_lt_length.mpr (mem_drop_one_Tlist L n hL)
  rw [periodOf] at hr2
  have hlen : r - 1 < ((Tlist L n).drop 1).length := by omega
  have hg : ((Tlist L n).drop 1).get ⟨r - 1, hlen⟩ = n := by
    rw [drop_one_Tlist_get, (by omega : r - 1 + 1 = r)]
    exact h
  have := indexOf_le_of_get _ n (r - 1) hlen hg
  omega

theorem periodOf_le_of_rot (L n r : ℕ) (hL : 0 < L) (hr1 : 1 ≤ r) (hrL : r ≤ L)
    (h : RotLBit n L r = n) : periodOf L n ≤ r := by
  by_contra hc
  exact periodOf_min L n r hL hr1 (by omega) h

theorem rotMod_periodOf (L n : ℕ) (hL : 0 < L) (hn : n < 2 ^ L) :
    rotMod L (periodOf L n) n = n := by
  rw [← rotL_eq_rotMod L _ n hL hn (periodOf_le L n hL)]
  exact rotL_periodOf L n hL

theorem rotMod_mul_periodOf (L n q : ℕ) (hL : 0 < L) (hn : n < 2 ^ L) :
    rotMod L (q * periodOf L n) n = n := by
  induction q with
  | zero => simpa using rotMod_zero L n hL hn
  | succ q ih =>
      have e : (q + 1) * periodOf L n = periodOf L n + q * periodOf L n := by ring
      rw [e, ← rotMod_add L _ _ n hL hn, ih, rotMod_periodOf L n hL hn]

theorem rotMod_mod_periodOf (L n u : ℕ) (hL : 0 < L) (hn : n < 2 ^ L) :
    rotMod L u n = rotMod L (u % periodOf L n) n := by
  have e : u = u % periodOf L n + (u / periodOf L n) * periodOf L n := by
    rw [mul_comm]
    exact (Nat.mod_add_div u (periodOf L n)).symm
  conv_lhs => rw [e]
  rw [← rotMod_add L _ _ n hL hn, rotMod_mul_periodOf L n _ hL hn]

theorem periodOf_dvd (L n : ℕ) (hL : 0 < L) (hn : n < 2 ^ L) : periodOf L n ∣ L := by
  have hRpos : 0 < periodOf L n := periodOf_pos L n
  have hRL : periodOf L n ≤ L := periodOf_le L n hL
  by_contra hc
  have hmod : L % periodOf L n ≠ 0 := fun h => hc (Nat.dvd_of_mod_eq_zero h)
  have h1 : 0 < L % periodOf L n := Nat.pos_of_ne_zero hmod
  have h2 : L % periodOf L n < periodOf L n := Nat.mod_lt _ hRpos
  have h3 : RotLBit n L (L % periodOf L n) = n := by
    have e1 : rotMod L L n = n := by
      rw [rotMod, Nat.mod_self]
      exact rotL_zero n L hn
    have e2 := rotMod_mod_periodOf L n L hL hn
    rw [e1] at e2
    rw [rotMod, Nat.mod_eq_of_lt (by omega : L % periodOf L n < L)] at e2
    exact e2.symm
  have := periodOf_le_of_rot L n (L % periodOf L n) hL (by omega) (by omega) h3
  omega

theorem mem_Tlist_iff_rotMod (L n x : ℕ) (hL : 0 < L) (hn : n < 2 ^ L) :
    x ∈ Tlist L n ↔ ∃ u, x = rotMod L u n := by
  rw [mem_Tlist]
  constructor
  · rintro ⟨s, hs, rfl⟩
    exact ⟨s, rotL_eq_rotMod L s n hL hn hs⟩
  · rintro ⟨u, rfl⟩
    exact ⟨u % L, le_of_lt (Nat.mod_lt _ hL), rfl⟩

theorem Tlist_mem_iff_of_orbit (L n u x : ℕ) (hL : 0 < L) (hn : n < 2 ^ L) :
    x ∈ Tlist L (rotMod L u n) ↔ x ∈ Tlist L n := by
  have hm : rotMod L u n < 2 ^ L := rotMod_lt L u n hL hn
  rw [mem_Tlist_iff_rotMod L _ x hL hm, mem_Tlist_iff_rotMod L n x hL hn]
  constructor
  · rintro ⟨v, rfl⟩
    exact ⟨v + u, rotMod_add L v u n hL hn⟩
  · rintro ⟨v, rfl⟩
    refine ⟨v + (L - u % L), ?_⟩
    rw [← rotMod_add L v _ _ hL hm, rotMod_inv L u n hL hn]

theorem repOf_rotMod (L n u : ℕ) (hL : 0 < L) (hn : n < 2 ^ L) :
    repOf L (rotMod L u n) = repOf L n := by
  apply le_antisymm
  · apply repOf_le
    rw [Tlist_mem_iff_of_orbit L n u _ hL hn]
    exact repOf_mem L n
  · apply repOf_le
    rw [← Tlist_mem_iff_of_orbit L n u _ hL hn]
    exact repOf_mem L _

theorem periodOf_rotMod_le (L n u : ℕ) (hL : 0 < L) (hn : n < 2 ^ L) :
    periodOf L (rotMod L u n) ≤ periodOf L n := by
  have hm : rotMod L u n < 2 ^ L := rotMod_lt L u n hL hn
  apply periodOf_le_of_rot L _ _ hL (periodOf_pos L n) (periodOf_le L n hL)
  rw [rotL_eq_rotMod L _ _ hL hm (periodOf_le L n hL),
    rotMod_add L _ u n hL hn, Nat.add_comm, ← rotMod_add L u _ n hL hn,
    rotMod_periodOf L n hL hn]

theorem periodOf_rotMod (L n u : ℕ) (hL : 0 < L) (hn : n < 2 ^ L) :
    periodOf L (rotMod L u n) = periodOf L n := by
  have hm : rotMod L u n < 2 ^ L := rotMod_lt L u n hL hn
  apply le_antisymm (periodOf_rotMod_le L n u hL hn)
  have h2 := periodOf_rotMod_le L (rotMod L u n) (L - u % L) hL hm
  rwa [rotMod_inv L u n hL hn] at h2

theorem rotL_distOf (L n : ℕ) : RotLBit n L (distOf L n) = repOf L n := by
  have h := List.indexOf_lt_length.mpr (repOf_mem L n)
  have hg := List.indexOf_get h
  rw [Tlist_get L n _ h] at hg
  rw [distOf]
  exact hg

theorem distOf_le (L n : ℕ) : distOf L n ≤ L := by
  have h := List.indexOf_lt_length.mpr (repOf_mem L n)
  rw [Tlist_length] at h
  rw [distOf]
  omega

theorem distOf_lt (L n : ℕ) (hL : 0 < L) (hn : n < 2 ^ L) : distOf L n < L := by
  by_contra hc
  have hdL : distOf L n = L := by
    have := distOf_le L n
    omega
  have hrep : repOf L n = n := by
    have h := rotL_distOf L n
    rw [hdL, rotL_full] at h
    exact h.symm
  have hlen : 0 < (Tlist L n).length := by rw [Tlist_length]; omega
  have h0 : (Tlist L n).get ⟨0, hlen⟩ = repOf L n := by
    rw [Tlist_get, rotL_zero n L hn, hrep]
  have hle := indexOf_le_of_get _ _ 0 hlen h0
  rw [distOf] at hdL
  omega

theorem distOf_lt_periodOf (L n : ℕ) (hL : 0 < L) (hn : n < 2 ^ L) :
    distOf L n < periodOf L n := by
  by_contra hc
  push_neg at hc
  have hd : distOf L n < L := distOf_lt L n hL hn
  have hRpos : 0 < periodOf L n := periodOf_pos L n
  have e1 : RotLBit n L (distOf L n - periodOf L n) = repOf L n := by
    rw [rotL_eq_rotMod L _ n hL hn (by omega)]
    have e3 : rotMod L (distOf L n - periodOf L n) n =
        rotMod L (distOf L n - periodOf L n) (rotMod L (periodOf L n) n) := by
      rw [rotMod_periodOf L n hL hn]
    have e2 : distOf L n - periodOf L n + periodOf L n = distOf L n := by omega
    rw [e3, rotMod_add L _ _ n hL hn, e2,
      ← rotL_eq_rotMod L _ n hL hn (by omega : distOf L n ≤ L)]
    exact rotL_distOf L n
  have hlen : distOf L n - periodOf L n < (Tlist L n).length := by
    rw [Tlist_length]
    omega
  have hg : (Tlist L n).get ⟨distOf L n - periodOf L n, hlen⟩ = repOf L n := by
    rw [Tlist_get]
    exact e1
  have hle := indexOf_le_of_get _ _ _ hlen hg
  have hdd : (Tlist L n).indexOf (repOf L n) = distOf L n := rfl
  omega

theorem rotMod_inj_below_period_aux (L n u v : ℕ) (hL : 0 < L) (hn : n < 2 ^ L)
    (hv : v < periodOf L n) (hle : u ≤ v)
    (h : rotMod L u n = rotMod L v n) : u = v := by
  by_contra hne
  have hRL : periodOf L n ≤ L := periodOf_le L n hL
  have huL : u % L = u := Nat.mod_eq_of_lt (by omega)
  have e1 : n = rotMod L (L - u % L + v) n := by
    conv_lhs => rw [← rotMod_inv L u n hL hn]
    rw [h, rotMod_add L _ v n hL hn]
  have e2 : rotMod L (L - u % L + v) n = rotMod L (v - u) n := by
    apply rotMod_congr
    have e : L - u % L + v = L + (v - u) := by omega
    rw [e, Nat.add_mod_left]
  have e3 : RotLBit n L (v - u) = n := by
    rw [rotL_eq_rotMod L _ n hL hn (by omega), ← e2, ← e1]
  exact periodOf_min L n (v - u) hL (by omega) (by omega) e3

theorem rotMod_inj_below_period (L n u v : ℕ) (hL : 0 < L) (hn : n < 2 ^ L)
    (hu : u < periodOf L n) (hv : v < periodOf L n)
    (h : rotMod L u n = rotMod L v n) : u = v := by
  rcases Nat.le_total u v with hle | hle
  · exact rotMod_inj_below_period_aux L n u v hL hn hv hle h
  · exact (rotMod_inj_below_period_aux L n v u hL hn hu hle h.symm).symm

theorem rot_eq_repOf_iff (L n s : ℕ) (hL : 0 < L) (hn : n < 2 ^ L) (hs : s < L) :
    RotLBit n L s = repOf L n ↔ s % periodOf L n = distOf L n := by
  have hdR : distOf L n < periodOf L n := distOf_lt_periodOf L n hL hn
  have hdL : distOf L n < L := distOf_lt L n hL hn
  constructor
  · intro h
    have e1 : rotMod L s n = rotMod L (distOf L n) n := by
      rw [← rotL_eq_rotMod L s n hL hn (by omega),
        ← rotL_eq_rotMod L _ n hL hn (by omega : distOf L n ≤ L), h,
        rotL_distOf]
    have e2 : rotMod L (s % periodOf L n) n = rotMod L (distOf L n) n := by
      rw [← rotMod_mod_periodOf L n s hL hn]
      exact e1
    exact rotMod_inj_below_period L n _ _ hL hn
      (Nat.mod_lt _ (periodOf_pos L n)) hdR e2
  · intro h
    rw [rotL_eq_rotMod L s n hL hn (by omega), rotMod_mod_periodOf L n s hL hn, h,
      ← rotL_eq_rotMod L _ n hL hn (by omega : distOf L n ≤ L)]
    exact rotL_distOf L n

theorem countBit_card (w : ℕ) : ∀ i, i < 2 ^ w →
    CountBit i = ((Finset.range w).filter (fun j => i.testBit j)).card := by
  induction w with
  | zero =>
      intro i hi
      have : i = 0 := by
        have : (2 : ℕ) ^ 0 = 1 := by norm_num
        omega
      subst this
      simp [CountBit]
  | succ w ih =>
      intro i hi
      have hi2 : i / 2 < 2 ^ w := by
        rw [Nat.div_lt_iff_lt_mul (by norm_num)]
        calc i < 2 ^ (w + 1) := hi
          _ = 2 ^ w * 2 := by ring
      rw [countBit_rec, ih _ hi2, Finset.card_filter, Finset.card_filter,
        Finset.sum_range_succ']
      have h0 : i % 2 = if i.testBit 0 then 1 else 0 := by
        rcases Nat.mod_two_eq_zero_or_one i with h | h <;>
          simp [Nat.testBit_zero, h]
      rw [h0, Nat.add_comm]
      congr 1
      apply Finset.sum_congr rfl
      intro j _
      rw [Nat.testBit_div_two]

theorem countBit_rotL (L s n : ℕ) (hL : 0 < L) (hn : n < 2 ^ L) (hs : s ≤ L) :
    CountBit (RotLBit n L s) = CountBit n := by
  rw [countBit_card L _ (rotL_lt n L s hn hs), countBit_card L n hn]
  apply Finset.card_bij (fun j _ => (j + (L - s)) % L)
  · intro j hj
    simp only [Finset.mem_filter, Finset.mem_range] at hj ⊢
    refine ⟨Nat.mod_lt _ hL, ?_⟩
    rw [← rotL_testBit n L s j hn hs hj.1]
    exact hj.2
  · intro j1 h1 j2 h2 he
    simp only [Finset.mem_filter, Finset.mem_range] at h1 h2
    have h3 := Nat.ModEq.add_right_cancel' (L - s) he
    rwa [Nat.ModEq, Nat.mod_eq_of_lt h1.1, Nat.mod_eq_of_lt h2.1] at h3
  · intro x hx
    simp only [Finset.mem_filter, Finset.mem_range] at hx
    refine ⟨(x + s) % L, ?_, ?_⟩
    · simp only [Finset.mem_filter, Finset.mem_range]
      refine ⟨Nat.mod_lt _ hL, ?_⟩
      rw [rotL_testBit n L s _ hn hs (Nat.mod_lt _ hL), Nat.mod_add_mod]
      have e : x + s + (L - s) = x + L := by omega
      rw [e, Nat.add_mod_right, Nat.mod_eq_of_lt hx.1]
      exact hx.2
    · rw [Nat.mod_add_mod]
      have e : x + s + (L - s) = x + L := by omega
      rw [e, Nat.add_mod_right, Nat.mod_eq_of_lt hx.1]

theorem countBit_flip_ne (L i n : ℕ) (hi : i < L) (hn : n < 2 ^ L) :
    CountBit (n ^^^ (1 <<< i)) ≠ CountBit n := by
  have hx : n ^^^ (1 <<< i) < 2 ^ L := by
    rw [Nat.one_shiftLeft]
    exact Nat.xor_lt_two_pow hn (Nat.pow_lt_pow_right (by norm_num) hi)
  rw [countBit_card L _ hx, countBit_card L n hn, Finset.card_filter,
    Finset.card_filter]
  have hmem : i ∈ Finset.range L := Finset.mem_range.mpr hi
  rw [← Finset.sum_erase_add _ _ hmem, ← Finset.sum_erase_add _ _ hmem]
  have hsame : ∀ j ∈ (Finset.range L).erase i,
      (if (n ^^^ (1 <<< i)).testBit j then (1 : ℕ) else 0) =
      if n.testBit j then 1 else 0 := by
    intro j hj
    have hji : j ≠ i := Finset.ne_of_mem_erase hj
    rw [Nat.one_shiftLeft, Nat.testBit_xor, Nat.testBit_two_pow]
    simp [Ne.symm hji]
  rw [Finset.sum_congr rfl hsame]
  have hflip : (n ^^^ (1 <<< i)).testBit i = !n.testBit i := by
    rw [Nat.one_shiftLeft, Nat.testBit_xor, Nat.testBit_two_pow]
    simp
  rw [hflip]
  by_cases h : n.testBit i <;> simp [h]

theorem rotR_arith (i L s : ℕ) :
    RotRBit i L s = (i % 2 ^ s) * 2 ^ (L - s) + i / 2 ^ s := by
  rw [RotRBit, pickBit_eq, Nat.shiftLeft_eq, Nat.shiftRight_eq_div_pow,
    Nat.shiftRight_eq_div_pow]
  norm_num

theorem rotR_lt (i L s : ℕ) (hi : i < 2 ^ L) (hs : s ≤ L) : RotRBit i L s < 2 ^ L := by
  rw [rotR_arith]
  have h1 : i % 2 ^ s < 2 ^ s := Nat.mod_lt _ (Nat.two_pow_pos _)
  have h2 : i / 2 ^ s < 2 ^ (L - s) := by
    rw [Nat.div_lt_iff_lt_mul (Nat.two_pow_pos _)]
    calc i < 2 ^ L := hi
      _ = 2 ^ (L - s) * 2 ^ s := by rw [← pow_add]; congr 1; omega
  calc (i % 2 ^ s) * 2 ^ (L - s) + i / 2 ^ s
      < (i % 2 ^ s) * 2 ^ (L - s) + 2 ^ (L - s) := by omega
    _ = (i % 2 ^ s + 1) * 2 ^ (L - s) := by ring
    _ ≤ 2 ^ s * 2 ^ (L - s) := Nat.mul_le_mul_right _ h1
    _ = 2 ^ L := by rw [← pow_add]; congr 1; omega

theorem rotR_testBit (i L s j : ℕ) (hi : i < 2 ^ L) (hs : s ≤ L) (hj : j < L) :
    (RotRBit i L s).testBit j = i.testBit ((j + s) % L) := by
  have hd : i / 2 ^ s < 2 ^ (L - s) := by
    rw [Nat.div_lt_iff_lt_mul (Nat.two_pow_pos _)]
    calc i < 2 ^ L := hi
      _ = 2 ^ (L - s) * 2 ^ s := by rw [← pow_add]; congr 1; omega
  rw [rotR_arith, mul_comm, Nat.testBit_mul_pow_two_add _ hd]
  by_cases h : j < L - s
  · rw [if_pos h, ← Nat.shiftRight_eq_div_pow, Nat.testBit_shiftRight]
    congr 1
    rw [Nat.mod_eq_of_lt (by omega : j + s < L)]
    omega
  · rw [if_neg h, Nat.testBit_mod_two_pow]
    have h1 : j - (L - s) < s := by omega
    have h2 : j + s = (j - (L - s)) + L := by omega
    rw [h2, Nat.add_mod_right, Nat.mod_eq_of_lt (by omega : j - (L - s) < L)]
    simp [h1]

theorem rotR_rotL (n L s : ℕ) (hL : 0 < L) (hn : n < 2 ^ L) (hs : s ≤ L) :
    RotRBit (RotLBit n L s) L s = n := by
  have h1 : RotLBit n L s < 2 ^ L := rotL_lt n L s hn hs
  apply bits_ext L _ _ (rotR_lt _ L s h1 hs) hn
  intro j hj
  rw [rotR_testBit _ L s j h1 hs hj,
    rotL_testBit n L s _ hn hs (Nat.mod_lt _ hL), Nat.mod_add_mod]
  have e : j + s + (L - s) = j + L := by omega
  rw [e, Nat.add_mod_right, Nat.mod_eq_of_lt hj]

theorem buildBasisNk_mem (L k n : ℕ) :
    n ∈ BuildBasisNk L k ↔
    n < 2 ^ L ∧ repOf L n = n ∧ (k * periodOf L n) % L = 0 := by
  rw [BuildBasisNk, BuildBasisN, List.mem_filter, List.mem_range]
  simp only [Bool.and_eq_true, beq_iff_eq]

theorem buildBasisNk_sorted (L k : ℕ) : List.Sorted (· < ·) (BuildBasisNk L k) :=
  List.Pairwise.filter _ (List.sorted_lt_range _)

theorem buildBasisNk_nodup (L k : ℕ) : (BuildBasisNk L k).Nodup :=
  List.Nodup.filter _ (List.nodup_range _)

theorem listMin_append_singleton (l : List ℕ) (x : ℕ) (hl : l ≠ []) :
    listMin (l ++ [x]) = min (listMin l) x := by
  cases l with
  | nil => exact absurd rfl hl
  | cons a t =>
      rw [List.cons_append, listMin, listMin, List.foldl_append]
      simp

theorem repOf_eq_minRotL (L n : ℕ) (hL : 0 < L) (hn : n < 2 ^ L) :
    repOf L n = minRotL L n := by
  have hnil : (List.range L).map (fun i => RotLBit n L i) ≠ [] := by
    intro h
    have := congrArg List.length h
    simp at this
    omega
  rw [repOf, Tlist, List.range_succ, List.map_append, List.map_cons, List.map_nil,
    listMin_append_singleton _ _ hnil, rotL_full, minRotL]
  have hmem : n ∈ (List.range L).map (fun i => RotLBit n L i) :=
    List.mem_map.mpr ⟨0, List.mem_range.mpr hL, rotL_zero n L hn⟩
  exact min_eq_left (listMin_le _ n hmem)

/-- C3: BuildBasisNk contains a state n of the full space exactly when n is
the minimum of its L cyclic left-rotations and k times the period of n
vanishes modulo L, and the output list is sorted in ascending order. -/
theorem buildBasisNk_spec (L k : ℕ) (hL : 1 ≤ L) (hk : k < L) :
    (∀ n, n < 2 ^ L →
      (n ∈ BuildBasisNk L k ↔ minRotL L n = n ∧ (k * periodOf L n) % L = 0)) ∧
    List.Sorted (· < ·) (BuildBasisNk L k) := by
  refine ⟨fun n hn => ?_, buildBasisNk_sorted L k⟩
  rw [buildBasisNk_mem, ← repOf_eq_minRotL L n hL hn]
  tauto

theorem buildBasisNk_spec_witness :
    ((1 : ℕ) ≤ 2 ∧ 1 < 2) ∧
    ((∀ n, n < 2 ^ 2 →
      (n ∈ BuildBasisNk 2 1 ↔ minRotL 2 n = n ∧ (1 * periodOf 2 n) % 2 = 0)) ∧
    List.Sorted (· < ·) (BuildBasisNk 2 1)) :=
  ⟨⟨by norm_num, by norm_num⟩, buildBasisNk_spec 2 1 (by norm_num) (by norm_num)⟩

/-- C4: the period search of BuildBasisNk never fails: some rotation count
r between 1 and L returns n (r = L always works), the value periodOf
computed from the rotation list is the least such r, and it divides L. -/
theorem period_well_defined (L n : ℕ) (hL : 1 ≤ L) (hn : n < 2 ^ L) :
    (∃ r, 1 ≤ r ∧ r ≤ L ∧ RotLBit n L r = n) ∧
    1 ≤ periodOf L n ∧ periodOf L n ≤ L ∧
    RotLBit n L (periodOf L n) = n ∧
    (∀ r, 1 ≤ r → r < periodOf L n → RotLBit n L r ≠ n) ∧
    periodOf L n ∣ L :=
  ⟨⟨L, hL, le_refl L, rotL_full n L⟩, periodOf_pos L n, periodOf_le L n hL,
    rotL_periodOf L n hL, fun r h1 h2 => periodOf_min L n r hL h1 h2,
    periodOf_dvd L n hL hn⟩

theorem period_well_defined_witness :
    ((1 : ℕ) ≤ 3 ∧ 5 < 2 ^ 3) ∧
    ((∃ r, 1 ≤ r ∧ r ≤ 3 ∧ RotLBit 5 3 r = 5) ∧
    1 ≤ periodOf 3 5 ∧ periodOf 3 5 ≤ 3 ∧
    RotLBit 5 3 (periodOf 3 5) = 5 ∧
    (∀ r, 1 ≤ r → r < periodOf 3 5 → RotLBit 5 3 r ≠ 5) ∧
    periodOf 3 5 ∣ 3) :=
  ⟨⟨by norm_num, by norm_num⟩, period_well_defined 3 5 (by norm_num) (by norm_num)⟩

/-- C6: RotLBit equals the PickBit shift formula of the specification, and
RotRBit inverts RotLBit on L-bit states. -/
theorem rot_roundtrip (n L s : ℕ) (hn : n < 2 ^ L) (hs : s ≤ L) :
    RotLBit n L s = (PickBit n 0 (L - s)) <<< s + (n >>> (L - s)) ∧
    RotRBit (RotLBit n L s) L s = n := by
  refine ⟨rfl, ?_⟩
  rcases Nat.eq_zero_or_pos L with hL | hL
  · subst hL
    have h1 : (2 : ℕ) ^ 0 = 1 := by norm_num
    have hn0 : n = 0 := by omega
    have hs0 : s = 0 := by omega
    subst hn0
    subst hs0
    decide
  · exact rotR_rotL n L s hL hn hs

theorem rot_roundtrip_witness :
    ((6 : ℕ) < 2 ^ 3 ∧ 2 ≤ 3) ∧
    (RotLBit 6 3 2 = (PickBit 6 0 (3 - 2)) <<< 2 + (6 >>> (3 - 2)) ∧
    RotRBit (RotLBit 6 3 2) 3 2 = 6) :=
  ⟨⟨by norm_num, by norm_num⟩, rot_roundtrip 6 3 2 (by norm_num) (by norm_num)⟩

/-- C10: rotation is closed on L-bit states and preserves the number of
set bits counted by CountBit. -/
theorem rot_preserves_countBit (L s n : ℕ) (hn : n < 2 ^ L) (hs : s ≤ L) :
    RotLBit n L s < 2 ^ L ∧ CountBit (RotLBit n L s) = CountBit n := by
  refine ⟨rotL_lt n L s hn hs, ?_⟩
  rcases Nat.eq_zero_or_pos L with hL | hL
  · subst hL
    have h1 : (2 : ℕ) ^ 0 = 1 := by norm_num
    have hn0 : n = 0 := by omega
    have hs0 : s = 0 := by omega
    subst hn0
    subst hs0
    have h2 : RotLBit 0 0 0 = 0 := by decide
    rw [h2]
  · exact countBit_rotL L s n hL hn hs

theorem rot_preserves_countBit_witness :
    ((5 : ℕ) < 2 ^ 3 ∧ 2 ≤ 3) ∧
    (RotLBit 5 3 2 < 2 ^ 3 ∧ CountBit (RotLBit 5 3 2) = CountBit 5) :=
  ⟨⟨by norm_num, by norm_num⟩, rot_preserves_countBit 3 2 5 (by norm_num) (by norm_num)⟩

theorem length_filter_range (N : ℕ) (p : ℕ → Bool) :
    ((List.range N).filter p).length =
    ((Finset.range N).filter (fun n => p n = true)).card := by
  induction N with
  | zero => simp
  | succ N ih =>
      rw [List.range_succ, List.filter_append, List.length_append, ih,
        Finset.range_succ, Finset.filter_insert]
      by_cases h : p N = true
      · rw [if_pos h, Finset.card_insert_of_not_mem (by simp)]
        simp [h]
      · rw [if_neg h]
        simp [h]

theorem buildBasisNk_length (L k : ℕ) :
    (BuildBasisNk L k).length =
    ((Finset.range (2 ^ L)).filter
      (fun n => repOf L n = n ∧ (k * periodOf L n) % L = 0)).card := by
  rw [BuildBasisNk, BuildBasisN, length_filter_range]
  congr 1
  apply Finset.filter_congr
  intro n _
  simp [Bool.and_eq_true, beq_iff_eq]

theorem card_sel_eq_period (L R : ℕ) (hL : 0 < L) (hR : R ∣ L) (hRpos : 0 < R) :
    ((Finset.range L).filter (fun j => (j * R) % L = 0)).card = R := by
  obtain ⟨c, hc⟩ := hR
  have hcpos : 0 < c := by
    rcases Nat.eq_zero_or_pos c with h0 | h0
    · subst h0
      rw [Nat.mul_zero] at hc
      omega
    · exact h0
  have hiff : ∀ j, (j * R) % L = 0 ↔ c ∣ j := by
    intro j
    rw [← Nat.dvd_iff_mod_eq_zero, hc]
    constructor
    · intro h
      have h2 : c * R ∣ j * R := by
        rw [mul_comm R c] at h
        exact h
      exact (Nat.mul_dvd_mul_iff_right hRpos).mp h2
    · intro h
      rw [mul_comm R c]
      exact Nat.mul_dvd_mul_right h R
  have hbij : (Finset.range R).card =
      ((Finset.range L).filter (fun j => (j * R) % L = 0)).card := by
    apply Finset.card_bij (fun (j : ℕ) (_ : j ∈ Finset.range R) => j * c)
    · intro j hj
      simp only [Finset.mem_range] at hj
      simp only [Finset.mem_filter, Finset.mem_range]
      refine ⟨?_, (hiff _).mpr (Dvd.intro_left j rfl)⟩
      rw [hc, mul_comm R c]
      exact mul_lt_mul_of_pos_right hj hcpos |>.trans_le (le_of_eq (mul_comm R c))
    · intro j1 h1 j2 h2 he
      exact Nat.eq_of_mul_eq_mul_right hcpos he
    · intro x hx
      simp only [Finset.mem_filter, Finset.mem_range] at hx
      obtain ⟨hxL, hsel⟩ := hx
      obtain ⟨d, hd⟩ := (hiff x).mp hsel
      have hdR : d < R := by
        have h1 : c * d < c * R := by
          rw [← hd, mul_comm c R, ← hc]
          exact hxL
        exact lt_of_mul_lt_mul_left h1 (Nat.zero_le c)
      exact ⟨d, Finset.mem_range.mpr hdR, by rw [hd, mul_comm]⟩
  rw [Finset.card_range] at hbij
  exact hbij.symm

theorem repOf_idem (L m : ℕ) (hL : 0 < L) (hm : m < 2 ^ L) :
    repOf L (repOf L m) = repOf L m := by
  have h : repOf L m = rotMod L (distOf L m) m := by
    rw [← rotL_eq_rotMod L _ m hL hm (distOf_le L m)]
    exact (rotL_distOf L m).symm
  conv_lhs => rw [h]
  exact repOf_rotMod L m _ hL hm

theorem fiber_card (L n : ℕ) (hL : 0 < L) (hn : n < 2 ^ L) (hrep : repOf L n = n) :
    ((Finset.range (2 ^ L)).filter (fun m => repOf L m = n)).card = periodOf L n := by
  have hset : (Finset.range (2 ^ L)).filter (fun m => repOf L m = n) =
      (Finset.range (periodOf L n)).image (fun s => RotLBit n L s) := by
    ext m
    simp only [Finset.mem_filter, Finset.mem_range, Finset.mem_image]
    constructor
    · rintro ⟨hm, hrm⟩
      have hmemT : n ∈ Tlist L m := by
        rw [← hrm]
        exact repOf_mem L m
      obtain ⟨t, ht⟩ := (mem_Tlist_iff_rotMod L m n hL hm).mp hmemT
      have hminv : rotMod L (L - t % L) n = m := by
        rw [ht, rotMod_inv L t m hL hm]
      refine ⟨(L - t % L) % periodOf L n, Nat.mod_lt _ (periodOf_pos L n), ?_⟩
      have hb : (L - t % L) % periodOf L n ≤ L :=
        le_of_lt (lt_of_lt_of_le (Nat.mod_lt _ (periodOf_pos L n)) (periodOf_le L n hL))
      rw [rotL_eq_rotMod L _ n hL hn hb, ← rotMod_mod_periodOf L n _ hL hn, hminv]
    · rintro ⟨s, hs, rfl⟩
      have hsL : s ≤ L := le_of_lt (lt_of_lt_of_le hs (periodOf_le L n hL))
      refine ⟨rotL_lt n L s hn hsL, ?_⟩
      rw [rotL_eq_rotMod L s n hL hn hsL, repOf_rotMod L n s hL hn, hrep]
  rw [hset, Finset.card_image_of_injOn, Finset.card_range]
  intro s1 h1 s2 h2 he
  simp only [Finset.coe_range, Set.mem_Iio] at h1 h2
  apply rotMod_inj_below_period L n s1 s2 hL hn h1 h2
  rw [← rotL_eq_rotMod L s1 n hL hn (le_of_lt (lt_of_lt_of_le h1 (periodOf_le L n hL))),
    ← rotL_eq_rotMod L s2 n hL hn (le_of_lt (lt_of_lt_of_le h2 (periodOf_le L n hL)))]
  exact he

/-- C2: the sector basis sizes over k = 0..L-1 sum to 2^L, so the sector
bases partition the full Hilbert space dimension. -/
theorem basis_sizes_partition (L : ℕ) (hL : 1 ≤ L) :
    ∑ k in Finset.range L, (BuildBasisNk L k).length = 2 ^ L := by
  have h1 : ∀ k, (BuildBasisNk L k).length = ∑ n in Finset.range (2 ^ L),
      if repOf L n = n ∧ (k * periodOf L n) % L = 0 then 1 else 0 := by
    intro k
    rw [buildBasisNk_length, Finset.card_filter]
  calc ∑ k in Finset.range L, (BuildBasisNk L k).length
      = ∑ k in Finset.range L, ∑ n in Finset.range (2 ^ L),
          if repOf L n = n ∧ (k * periodOf L n) % L = 0 then 1 else 0 :=
        Finset.sum_congr rfl (fun k _ => h1 k)
    _ = ∑ n in Finset.range (2 ^ L), ∑ k in Finset.range L,
          if repOf L n = n ∧ (k * periodOf L n) % L = 0 then 1 else 0 :=
        Finset.sum_comm
    _ = ∑ n in Finset.range (2 ^ L),
          if repOf L n = n then periodOf L n else 0 := by
        apply Finset.sum_congr rfl
        intro n hn
        by_cases hrep : repOf L n = n
        · rw [if_pos hrep]
          have he : ∀ k ∈ Finset.range L,
              (if repOf L n = n ∧ (k * periodOf L n) % L = 0 then (1 : ℕ) else 0) =
              if (k * periodOf L n) % L = 0 then 1 else 0 := by
            intro k _
            by_cases hsel : (k * periodOf L n) % L = 0 <;> simp [hrep, hsel]
          rw [Finset.sum_congr rfl he, ← Finset.card_filter]
          exact card_sel_eq_period L (periodOf L n) hL
            (periodOf_dvd L n hL (Finset.mem_range.mp hn)) (periodOf_pos L n)
        · simp [hrep]
    _ = ∑ n in (Finset.range (2 ^ L)).filter (fun n => repOf L n = n),
          periodOf L n := (Finset.sum_filter _ _).symm
    _ = 2 ^ L := by
        have hcard := @Finset.card_eq_sum_card_fiberwise ℕ ℕ _ (repOf L)
          (Finset.range (2 ^ L))
          ((Finset.range (2 ^ L)).filter (fun n => repOf L n = n))
          (by
            intro m hm
            have hmlt := Finset.mem_range.mp hm
            simp only [Finset.mem_filter, Finset.mem_range]
            exact ⟨repOf_lt L m hmlt, repOf_idem L m hL hmlt⟩)
        rw [Finset.card_range] at hcard
        conv_rhs => rw [hcard]
        apply Finset.sum_congr rfl
        intro n hn2
        simp only [Finset.mem_filter, Finset.mem_range] at hn2
        exact (fiber_card L n hL hn2.1 hn2.2).symm

theorem basis_sizes_partition_witness :
    (1 : ℕ) ≤ 2 ∧ ∑ k in Finset.range 2, (BuildBasisNk 2 k).length = 2 ^ 2 :=
  ⟨by norm_num, basis_sizes_partition 2 (by norm_num)⟩

theorem list_sum_map_range_real (L : ℕ) (f : ℕ → ℝ) :
    ((List.range L).map f).sum = ∑ i in Finset.range L, f i := by
  induction L with
  | zero => simp
  | succ L ih =>
      rw [List.range_succ, List.map_append, List.sum_append, ih,
        Finset.sum_range_succ]
      simp

theorem actingH_unfold (n L : ℕ) (J g : ℝ) :
    ActingH n L J g =
    (List.range L).map (fun i => (n ^^^ (1 <<< i), -J * g)) ++
      [(n, isingDiag n L J)] := by
  rw [ActingH, isingDiag, List.map_map]
  rfl

/-- C5: ActingH emits exactly L+1 pairs: for each site i the flipped state
with amplitude minus J times g, then one diagonal pair carrying the summed
Ising bond energies. -/
theorem actingH_spec (n L : ℕ) (J g : ℝ) :
    (ActingH n L J g).length = L + 1 ∧
    ActingH n L J g =
      (List.range L).map (fun i => (FilpBit n i, -(J * g))) ++
      [(n, ∑ i in Finset.range L,
        if ReadBit n i = ReadBit n ((i + 1) % L) then -J else J)] := by
  constructor
  · rw [actingH_unfold]
    simp
  · rw [actingH_unfold, isingDiag, list_sum_map_range_real]
    congr 1
    apply List.map_congr_left
    intro i _
    rw [FilpBit, neg_mul]

/-- C7 counterexample: with the invalid configuration J = -1 (negative
coupling) BuildHNk still enumerates a nonempty sector basis instead of
failing fast, so no configuration validation precedes basis construction. -/
theorem validation_counterexample : (BuildHNk 2 0 (-1) 1).basis = [0, 1, 3] := by
  rfl

/-- C7 amended: the code performs no configuration validation at all; for
any J and g, including negative values, BuildHNk proceeds directly to
enumerate the sector basis, returning it unchanged in its result. -/
theorem no_validation_performed (L k : ℕ) (J g : ℝ) (h : J < 0 ∨ g < 0) :
    (BuildHNk L k J g).basis = BuildBasisNk L k ∧
    (BuildHNk L k J g).dim = (BuildBasisNk L k).length :=
  ⟨rfl, rfl⟩

theorem no_validation_performed_witness :
    ((-1 : ℝ) < 0 ∨ (1 : ℝ) < 0) ∧
    ((BuildHNk 2 0 (-1) 1).basis = BuildBasisNk 2 0 ∧
    (BuildHNk 2 0 (-1) 1).dim = (BuildBasisNk 2 0).length) :=
  ⟨Or.inl (by norm_num), no_validation_performed 2 0 (-1) 1 (Or.inl (by norm_num))⟩

theorem lookup_zip_range' (keys : List (ℕ × ℕ)) (key : ℕ × ℕ) :
    ∀ t, (keys.zip (List.range' t keys.length)).lookup key =
    if key ∈ keys then some (t + keys.indexOf key) else none := by
  induction keys with
  | nil => intro t; simp
  | cons a ks ih =>
      intro t
      rw [List.length_cons, List.range'_succ, List.zip_cons_cons, List.lookup_cons]
      by_cases hk : key = a
      · subst hk
        simp only [beq_self_eq_true]
        rw [if_pos (List.mem_cons_self key ks), List.indexOf_cons]
        simp
      · have hbeq : (key == a) = false := beq_false_of_ne hk
        have hba : (a == key) = false := beq_false_of_ne (Ne.symm hk)
        simp only [hbeq]
        rw [ih (t + 1), List.indexOf_cons, hba]
        simp only [cond_false]
        by_cases hmem : key ∈ ks
        · rw [if_pos hmem, if_pos (List.mem_cons_of_mem a hmem)]
          congr 1
          omega
        · rw [if_neg hmem, if_neg (by simp [hk, hmem])]

theorem lookup_zip_range (keys : List (ℕ × ℕ)) (key : ℕ × ℕ) :
    (keys.zip (List.range keys.length)).lookup key =
    if key ∈ keys then some (keys.indexOf key) else none := by
  rw [List.range_eq_range', lookup_zip_range' keys key 0]
  by_cases h : key ∈ keys <;> simp [h]

theorem indexOf_lt_length_beq {α : Type} [BEq α] [LawfulBEq α] {a : α}
    {l : List α} (h : a ∈ l) : l.indexOf a < l.length := by
  induction l with
  | nil => cases h
  | cons b t ih =>
      by_cases hbe : (b == a) = true
      · simp [List.indexOf_cons, hbe]
      · rw [Bool.not_eq_true] at hbe
        have hmem : a ∈ t := by
          rcases List.mem_cons.mp h with h1 | h1
          · subst h1
            rw [beq_self_eq_true] at hbe
            cases hbe
          · exact h1
        have := ih hmem
        simp only [List.indexOf_cons, hbe, cond_false, List.length_cons]
        omega

theorem getD_indexOf_beq {α : Type} [BEq α] [LawfulBEq α] {a : α}
    {l : List α} (h : a ∈ l) (d : α) : l.getD (l.indexOf a) d = a := by
  induction l with
  | nil => cases h
  | cons b t ih =>
      by_cases hbe : (b == a) = true
      · have hb : b = a := eq_of_beq hbe
        subst hb
        simp [List.indexOf_cons, hbe]
      · rw [Bool.not_eq_true] at hbe
        have hmem : a ∈ t := by
          rcases List.mem_cons.mp h with h1 | h1
          · subst h1
            rw [beq_self_eq_true] at hbe
            cases hbe
          · exact h1
        simp only [List.indexOf_cons, hbe, cond_false, List.getD_cons_succ]
        exact ih hmem

theorem getD_set_self (l : List ℂ) (i : ℕ) (x : ℂ) (h : i < l.length) :
    (l.set i x).getD i 0 = x := by
  induction l generalizing i with
  | nil => simp at h
  | cons a t ih =>
      cases i with
      | zero => rfl
      | succ i =>
          simp only [List.set_cons_succ, List.getD_cons_succ]
          exact ih i (by simpa using h)

theorem getD_set_ne (l : List ℂ) (i j : ℕ) (x : ℂ) (h : i ≠ j) :
    (l.set i x).getD j 0 = l.getD j 0 := by
  induction l generalizing i j with
  | nil => simp
  | cons a t ih =>
      cases i with
      | zero =>
          cases j with
          | zero => exact absurd rfl h
          | succ j => simp [List.set_cons_zero, List.getD_cons_succ]
      | succ i =>
          cases j with
          | zero => simp [List.set_cons_succ, List.getD_cons_zero]
          | succ j =>
              simp only [List.set_cons_succ, List.getD_cons_succ]
              exact ih i j (fun he => h (by rw [he]))

theorem getD_inj_of_nodup {α : Type} (keys : List α) (d : α) (hnd : keys.Nodup)
    (i j : ℕ) (hi : i < keys.length) (hj : j < keys.length)
    (h : keys.getD i d = keys.getD j d) : i = j := by
  rw [List.getD_eq_getElem _ _ hi, List.getD_eq_getElem _ _ hj] at h
  exact (List.Nodup.getElem_inj_iff hnd).mp h

theorem getD_mem {α : Type} (keys : List α) (d : α) (j : ℕ)
    (hj : j < keys.length) : keys.getD j d ∈ keys := by
  rw [List.getD_eq_getElem _ _ hj]
  exact List.getElem_mem _

theorem hstep_inv (L k : ℕ) (basis : List ℕ) (n : ℕ) (mh : ℕ × ℝ)
    (P : List (ℕ × ℕ × ℝ)) (st : HState) (hinv : HInv L k basis P st) :
    HInv L k basis (P ++ [(n, mh)]) (HStep L k basis n st mh) := by
  obtain ⟨keys, hnd, hcols, hrows, hlen, hpos, hmem, hval⟩ := hinv
  by_cases hrep : repOf L mh.1 ∈ basis
  case neg =>
    have hkey : keyOf L basis (n, mh) = none := by
      rw [keyOf, if_neg hrep]
    have hstep : HStep L k basis n st mh = st := by
      simp only [HStep, if_neg hrep]
    rw [hstep]
    refine ⟨keys, hnd, hcols, hrows, hlen, hpos, ?_, ?_⟩
    · intro key
      rw [hmem key, List.map_append, List.map_cons, List.map_nil, List.mem_append]
      constructor
      · exact Or.inl
      · rintro (h | h)
        · exact h
        · rw [hkey] at h
          simp at h
    · intro j hj
      rw [hval j hj, List.filter_append]
      have he : List.filter
          (fun c => keyOf L basis c = some (keys.getD j (0, 0))) [(n, mh)] = [] := by
        simp [hkey]
      rw [he, List.append_nil]
  case pos =>
    have hkey : keyOf L basis (n, mh) =
        some (basis.indexOf (repOf L mh.1), basis.indexOf n) := by
      rw [keyOf, if_pos hrep]
    by_cases hk0 : (basis.indexOf (repOf L mh.1), basis.indexOf n) ∈ keys
    · have hlook : st.pos.lookup (basis.indexOf (repOf L mh.1), basis.indexOf n) =
          some (keys.indexOf (basis.indexOf (repOf L mh.1), basis.indexOf n)) := by
        rw [hpos, lookup_zip_range, if_pos hk0]
      have hstep : HStep L k basis n st mh = HState.mk st.cols st.rows
          (st.vals.set
            (keys.indexOf (basis.indexOf (repOf L mh.1), basis.indexOf n))
            (st.vals.getD
              (keys.indexOf (basis.indexOf (repOf L mh.1), basis.indexOf n)) 0
              + wOf L k (n, mh))) st.pos := by
        simp only [HStep, if_pos hrep, hlook]
        simp [wOf]
      rw [hstep]
      have hidx : keys.indexOf (basis.indexOf (repOf L mh.1), basis.indexOf n)
          < keys.length := indexOf_lt_length_beq hk0
      refine ⟨keys, hnd, hcols, hrows, ?_, hpos, ?_, ?_⟩
      · rw [List.length_set]
        exact hlen
      · intro key
        rw [hmem key, List.map_append, List.map_cons, List.map_nil,
          List.mem_append]
        constructor
        · exact Or.inl
        · rintro (h | h)
          · exact h
          · rw [hkey] at h
            simp only [List.mem_singleton] at h
            rw [Option.some_inj] at h
            rw [h]
            exact (hmem _).mp hk0
      · intro j hj
        rw [List.filter_append, List.map_append, List.sum_append]
        by_cases hji : j = keys.indexOf (basis.indexOf (repOf L mh.1),
            basis.indexOf n)
        · subst hji
          rw [getD_set_self st.vals _ _ (by rw [hlen]; exact hidx),
            hval _ hidx, getD_indexOf_beq hk0]
          have hfil : List.filter
              (fun c => keyOf L basis c =
                some (basis.indexOf (repOf L mh.1), basis.indexOf n)) [(n, mh)] =
              [(n, mh)] := by
            simp [hkey]
          rw [hfil, List.map_cons, List.map_nil, List.sum_cons, List.sum_nil,
            add_zero]
        · rw [getD_set_ne st.vals _ j _ (fun he => hji he.symm), hval j hj]
          have hkj : keys.getD j (0, 0) ≠
              (basis.indexOf (repOf L mh.1), basis.indexOf n) := by
            intro he
            apply hji
            apply getD_inj_of_nodup keys (0, 0) hnd j _ hj hidx
            rw [he, getD_indexOf_beq hk0]
          have hfil : List.filter
              (fun c => keyOf L basis c = some (keys.getD j (0, 0))) [(n, mh)] =
              [] := by
            simp only [List.filter_cons, List.filter_nil, hkey]
            rw [if_neg]
            simp only [decide_eq_true_eq, Option.some_inj]
            intro he
            exact hkj he.symm
          rw [hfil, List.map_nil, List.sum_nil, add_zero]
    · have hlook : st.pos.lookup (basis.indexOf (repOf L mh.1), basis.indexOf n) =
          none := by
        rw [hpos, lookup_zip_range, if_neg hk0]
      have hstep : HStep L k basis n st mh = HState.mk
          (st.cols ++ [basis.indexOf (repOf L mh.1)])
          (st.rows ++ [basis.indexOf n])
          (st.vals ++ [wOf L k (n, mh)])
          (st.pos ++ [((basis.indexOf (repOf L mh.1), basis.indexOf n),
            st.cols.length)]) := by
        simp only [HStep, if_pos hrep, hlook]
        simp [wOf]
      rw [hstep]
      refine ⟨keys ++ [(basis.indexOf (repOf L mh.1), basis.indexOf n)], ?_, ?_,
        ?_, ?_, ?_, ?_, ?_⟩
      · rw [List.nodup_append]
        refine ⟨hnd, List.nodup_singleton _, ?_⟩
        intro x hx hx2
        simp only [List.mem_singleton] at hx2
        subst hx2
        exact hk0 hx
      · rw [List.map_append, hcols]
        rfl
      · rw [List.map_append, hrows]
        rfl
      · rw [List.length_append, List.length_append, hlen]
        rfl
      · have hclen : st.cols.length = keys.length := by
          rw [hcols, List.length_map]
        rw [List.length_append, hpos, hclen, List.length_singleton,
          List.range_succ, List.zip_append (by rw [List.length_range])]
        rfl
      · intro key
        rw [List.mem_append, hmem key, List.map_append, List.map_cons,
          List.map_nil, List.mem_append, hkey, List.mem_singleton,
          List.mem_singleton]
        constructor
        · rintro (h | h)
          · exact Or.inl h
          · exact Or.inr (by rw [h])
        · rintro (h | h)
          · exact Or.inl h
          · exact Or.inr (Option.some_inj.mp h.symm).symm
      · intro j hj
        rw [List.length_append, List.length_singleton] at hj
        rw [List.filter_append, List.map_append, List.sum_append]
        by_cases hjl : j < keys.length
        · have hgv : (st.vals ++ [wOf L k (n, mh)]).getD j 0 = st.vals.getD j 0 :=
            List.getD_append _ _ _ _ (by rw [hlen]; exact hjl)
          have hgk : (keys ++ [(basis.indexOf (repOf L mh.1),
              basis.indexOf n)]).getD j (0, 0) = keys.getD j (0, 0) :=
            List.getD_append _ _ _ _ hjl
          rw [hgv, hgk, hval j hjl]
          have hkj : keys.getD j (0, 0) ≠
              (basis.indexOf (repOf L mh.1), basis.indexOf n) := by
            intro he
            apply hk0
            rw [← he]
            exact getD_mem keys (0, 0) j hjl
          have hfil : List.filter
              (fun c => keyOf L basis c = some (keys.getD j (0, 0))) [(n, mh)] =
              [] := by
            simp only [List.filter_cons, List.filter_nil, hkey]
            rw [if_neg]
            simp only [decide_eq_true_eq, Option.some_inj]
            intro he
            exact hkj he.symm
          rw [hfil, List.map_nil, List.sum_nil, add_zero]
        · have hjeq : j = keys.length := by omega
          subst hjeq
          have hgv : (st.vals ++ [wOf L k (n, mh)]).getD keys.length 0 =
              wOf L k (n, mh) := by
            rw [List.getD_append_right _ _ _ _ (by rw [hlen]), hlen, Nat.sub_self]
            rfl
          have hgk : (keys ++ [(basis.indexOf (repOf L mh.1),
              basis.indexOf n)]).getD keys.length (0, 0) =
              (basis.indexOf (repOf L mh.1), basis.indexOf n) := by
            rw [List.getD_append_right _ _ _ _ (le_refl _), Nat.sub_self]
            rfl
          rw [hgv, hgk]
          have hfilP : List.filter (fun c => keyOf L basis c =
              some (basis.indexOf (repOf L mh.1), basis.indexOf n)) P = [] := by
            rw [List.filter_eq_nil_iff]
            intro c hc hkc
            apply hk0
            rw [hmem, List.mem_map]
            simp only [decide_eq_true_eq] at hkc
            exact ⟨c, hc, hkc⟩
          have hfil1 : List.filter (fun c => keyOf L basis c =
              some (basis.indexOf (repOf L mh.1), basis.indexOf n)) [(n, mh)] =
              [(n, mh)] := by
            simp [hkey]
          rw [hfilP, hfil1, List.map_nil, List.sum_nil, List.map_cons,
            List.map_nil, List.sum_cons, List.sum_nil, zero_add, add_zero]

theorem foldl_hstep_inv (L k : ℕ) (basis : List ℕ) (n : ℕ)
    (lst : List (ℕ × ℝ)) :
    ∀ (P : List (ℕ × ℕ × ℝ)) (st : HState), HInv L k basis P st →
    HInv L k basis (P ++ lst.map (fun mh => (n, mh)))
      (lst.foldl (HStep L k basis n) st) := by
  induction lst with
  | nil =>
      intro P st h
      simpa using h
  | cons mh rest ih =>
      intro P st h
      rw [List.map_cons, List.foldl_cons, List.append_cons]
      exact ih (P ++ [(n, mh)]) _ (hstep_inv L k basis n mh P st h)

theorem foldl_outer_inv (L k : ℕ) (J g : ℝ) (basis : List ℕ) (bl : List ℕ) :
    ∀ (P : List (ℕ × ℕ × ℝ)) (st : HState), HInv L k basis P st →
    HInv L k basis
      (P ++ (bl.map (fun n => (ActingH n L J g).map (fun mh => (n, mh)))).flatten)
      (bl.foldl (fun st n => (ActingH n L J g).foldl (HStep L k basis n) st) st) := by
  induction bl with
  | nil =>
      intro P st h
      simpa using h
  | cons n rest ih =>
      intro P st h
      rw [List.map_cons, List.flatten_cons, List.foldl_cons, ← List.append_assoc]
      exact ih _ _ (foldl_hstep_inv L k basis n (ActingH n L J g) P st h)

theorem buildHNk_inv (L k : ℕ) (J g : ℝ) :
    ∃ keys : List (ℕ × ℕ),
      keys.Nodup ∧
      (BuildHNk L k J g).cols = keys.map Prod.fst ∧
      (BuildHNk L k J g).rows = keys.map Prod.snd ∧
      (BuildHNk L k J g).vals.length = keys.length ∧
      (∀ key, key ∈ keys ↔
        some key ∈ (contribList L J g (BuildBasisNk L k)).map
          (keyOf L (BuildBasisNk L k))) ∧
      (∀ j, j < keys.length →
        (BuildHNk L k J g).vals.getD j 0 =
          (((contribList L J g (BuildBasisNk L k)).filter
            (fun c => keyOf L (BuildBasisNk L k) c =
              some (keys.getD j (0, 0)))).map (wOf L k)).sum) := by
  have hinit : HInv L k (BuildBasisNk L k) [] (HState.mk [] [] [] []) := by
    refine ⟨[], List.nodup_nil, rfl, rfl, rfl, rfl, ?_, ?_⟩
    · intro key
      simp
    · intro j hj
      simp at hj
  have h := foldl_outer_inv L k J g (BuildBasisNk L k) (BuildBasisNk L k) []
    (HState.mk [] [] [] []) hinit
  rw [List.nil_append] at h
  obtain ⟨keys, hnd, hcols, hrows, hlen, hpos, hmem, hval⟩ := h
  exact ⟨keys, hnd, hcols, hrows, hlen, hmem, hval⟩

theorem accEntry_eq_contribSum (L k : ℕ) (J g : ℝ) (r c : ℕ) :
    accEntry (BuildHNk L k J g) r c =
    (((contribList L J g (BuildBasisNk L k)).filter
      (fun cc => keyOf L (BuildBasisNk L k) cc = some (c, r))).map
        (wOf L k)).sum := by
  obtain ⟨keys, hnd, hcols, hrows, hlen, hmem, hval⟩ := buildHNk_inv L k J g
  rw [accEntry]
  have hterm : ∀ j ∈ Finset.range (BuildHNk L k J g).vals.length,
      (if (BuildHNk L k J g).rows.getD j 0 = r ∧
          (BuildHNk L k J g).cols.getD j 0 = c
        then (BuildHNk L k J g).vals.getD j 0 else 0) =
      (if keys.getD j (0, 0) = (c, r)
        then (BuildHNk L k J g).vals.getD j 0 else 0) := by
    intro j hj
    rw [Finset.mem_range, hlen] at hj
    have h1 : (BuildHNk L k J g).rows.getD j 0 = (keys.getD j (0, 0)).2 := by
      rw [hrows, List.getD_eq_getElem _ _ (by rw [List.length_map]; exact hj),
        List.getElem_map, ← List.getD_eq_getElem _ _ hj]
    have h2 : (BuildHNk L k J g).cols.getD j 0 = (keys.getD j (0, 0)).1 := by
      rw [hcols, List.getD_eq_getElem _ _ (by rw [List.length_map]; exact hj),
        List.getElem_map, ← List.getD_eq_getElem _ _ hj]
    rw [h1, h2]
    apply if_congr _ rfl rfl
    rw [Prod.ext_iff]
    tauto
  rw [Finset.sum_congr rfl hterm]
  by_cases hmemcr : (c, r) ∈ keys
  · have hidx := indexOf_lt_length_beq hmemcr
    rw [Finset.sum_eq_single (keys.indexOf (c, r))]
    · rw [if_pos (getD_indexOf_beq hmemcr (0, 0)), hval _ hidx,
        getD_indexOf_beq hmemcr]
    · intro j hj hne
      rw [Finset.mem_range, hlen] at hj
      rw [if_neg]
      intro he
      exact hne (getD_inj_of_nodup keys (0, 0) hnd j _ hj hidx
        (by rw [he, getD_indexOf_beq hmemcr]))
    · intro hnotin
      exfalso
      apply hnotin
      rw [Finset.mem_range, hlen]
      exact hidx
  · have hz : ∀ j ∈ Finset.range (BuildHNk L k J g).vals.length,
        (if keys.getD j (0, 0) = (c, r)
          then (BuildHNk L k J g).vals.getD j 0 else 0) = (0 : ℂ) := by
      intro j hj
      rw [Finset.mem_range, hlen] at hj
      rw [if_neg]
      intro he
      exact hmemcr (he ▸ getD_mem keys (0, 0) j hj)
    rw [Finset.sum_congr rfl hz, Finset.sum_const_zero]
    have hfil : (contribList L J g (BuildBasisNk L k)).filter
        (fun cc => keyOf L (BuildBasisNk L k) cc = some (c, r)) = [] := by
      rw [List.filter_eq_nil_iff]
      intro cc hcc hkcc
      apply hmemcr
      rw [hmem, List.mem_map]
      simp only [decide_eq_true_eq] at hkcc
      exact ⟨cc, hcc, hkcc⟩
    rw [hfil, List.map_nil, List.sum_nil]

theorem count_swap_pairs (keys : List (ℕ × ℕ)) (r c : ℕ) :
    (keys.map (fun p => (p.2, p.1))).count (r, c) = keys.count (c, r) := by
  induction keys with
  | nil => rfl
  | cons x t ih =>
      rw [List.map_cons, List.count_cons, List.count_cons, ih]
      congr 1
      by_cases hx : x = (c, r)
      · subst hx
        simp
      · have h1 : ((x.2, x.1) == (r, c)) = false := by
          rw [beq_eq_false_iff_ne]
          intro he
          apply hx
          rw [Prod.ext_iff] at he ⊢
          simp only at he
          exact ⟨he.2, he.1⟩
        have h2 : (x == (c, r)) = false := by
          rw [beq_eq_false_iff_ne]
          exact hx
        rw [h1, h2]

theorem count_nodup_mem (keys : List (ℕ × ℕ)) (hnd : keys.Nodup) (a : ℕ × ℕ)
    (h : a ∈ keys) : keys.count a = 1 := by
  induction keys with
  | nil => cases h
  | cons x t ih =>
      obtain ⟨hx, ht⟩ := List.nodup_cons.mp hnd
      rw [List.count_cons]
      by_cases hxa : x = a
      · subst hxa
        rw [List.count_eq_zero.mpr hx]
        simp
      · have hat : a ∈ t := by
          rcases List.mem_cons.mp h with h1 | h1
          · exact absurd h1.symm hxa
          · exact h1
        rw [ih ht hat]
        have h2 : (x == a) = false := by
          rw [beq_eq_false_iff_ne]
          exact hxa
        rw [h2]
        rfl

theorem tripletCount_eq (L k : ℕ) (J g : ℝ) (r c : ℕ) :
    tripletCount (BuildHNk L k J g) r c =
    if some (c, r) ∈ (contribList L J g (BuildBasisNk L k)).map
      (keyOf L (BuildBasisNk L k)) then 1 else 0 := by
  obtain ⟨keys, hnd, hcols, hrows, hlen, hmem, hval⟩ := buildHNk_inv L k J g
  rw [tripletCount, hrows, hcols, List.zip_map', count_swap_pairs]
  by_cases hm : (c, r) ∈ keys
  · rw [if_pos ((hmem _).mp hm)]
    exact count_nodup_mem keys hnd _ hm
  · rw [if_neg (fun h => hm ((hmem _).mpr h))]
    exact List.count_eq_zero_of_not_mem hm

theorem indexOf_getD_nodup (l : List ℕ) (hnd : l.Nodup) (r : ℕ)
    (hr : r < l.length) : l.indexOf (l.getD r 0) = r := by
  have hmem : l.getD r 0 ∈ l := getD_mem l 0 r hr
  apply getD_inj_of_nodup l 0 hnd _ r (indexOf_lt_length_beq hmem) hr
  rw [getD_indexOf_beq hmem]

theorem contrib_filter_sum (L k : ℕ) (J g : ℝ) (basis : List ℕ) (key : ℕ × ℕ)
    (bl : List ℕ) :
    ((((bl.map (fun n => (ActingH n L J g).map (fun mh => (n, mh)))).flatten).filter
      (fun cc => keyOf L basis cc = some key)).map (wOf L k)).sum =
    (bl.map (fun n =>
      ((((ActingH n L J g).map (fun mh => (n, mh))).filter
        (fun cc => keyOf L basis cc = some key)).map (wOf L k)).sum)).sum := by
  induction bl with
  | nil => simp
  | cons n rest ih =>
      rw [List.map_cons, List.flatten_cons, List.filter_append, List.map_append,
        List.sum_append, ih, List.map_cons, List.sum_cons]

theorem sum_basis_single (basis : List ℕ) (hnd : basis.Nodup) (r : ℕ)
    (hr : r < basis.length) (F : ℕ → ℂ)
    (hF : ∀ n ∈ basis, basis.indexOf n ≠ r → F n = 0) :
    (basis.map F).sum = F (basis.getD r 0) := by
  induction basis generalizing r with
  | nil => simp at hr
  | cons x t ih =>
      obtain ⟨hx, ht⟩ := List.nodup_cons.mp hnd
      rw [List.map_cons, List.sum_cons]
      cases r with
      | zero =>
          have hrest : (t.map F).sum = 0 := by
            apply List.sum_eq_zero
            intro y hy
            obtain ⟨n, hn, rfl⟩ := List.mem_map.mp hy
            apply hF n (List.mem_cons_of_mem x hn)
            have hne : n ≠ x := fun he => hx (he ▸ hn)
            rw [List.indexOf_cons]
            have hb : (x == n) = false := by
              rw [beq_eq_false_iff_ne]
              exact fun he => hne he.symm
            rw [hb]
            simp
          rw [hrest, add_zero, List.getD_cons_zero]
      | succ r =>
          have hx0 : F x = 0 := by
            apply hF x (List.mem_cons_self x t)
            rw [List.indexOf_cons, beq_self_eq_true]
            simp
          have hrec : (t.map F).sum = F (t.getD r 0) := by
            apply ih ht r (by simpa using hr)
            intro n hn hidx
            apply hF n (List.mem_cons_of_mem x hn)
            have hne : n ≠ x := fun he => hx (he ▸ hn)
            rw [List.indexOf_cons]
            have hb : (x == n) = false := by
              rw [beq_eq_false_iff_ne]
              exact fun he => hne he.symm
            rw [hb]
            simpa using fun he => hidx (by omega)
          rw [hx0, hrec, zero_add, List.getD_cons_succ]

theorem inner_sum_ite (L k : ℕ) (basis : List ℕ) (key : ℕ × ℕ) (n : ℕ)
    (lst : List (ℕ × ℝ)) :
    (((lst.map (fun mh => (n, mh))).filter
      (fun cc => keyOf L basis cc = some key)).map (wOf L k)).sum =
    (lst.map (fun mh => if keyOf L basis (n, mh) = some key
      then wOf L k (n, mh) else 0)).sum := by
  induction lst with
  | nil => rfl
  | cons mh rest ih =>
      rw [List.map_cons, List.filter_cons, List.map_cons, List.sum_cons, ← ih]
      by_cases hp : keyOf L basis (n, mh) = some key
      · rw [if_pos hp]
        simp [hp]
      · rw [if_neg hp]
        simp [hp]

theorem accEntry_row (L k : ℕ) (J g : ℝ) (r a : ℕ)
    (hr : r < (BuildBasisNk L k).length) :
    accEntry (BuildHNk L k J g) r a =
    ((ActingH ((BuildBasisNk L k).getD r 0) L J g).map
      (fun mh => if keyOf L (BuildBasisNk L k) ((BuildBasisNk L k).getD r 0, mh) =
        some (a, r) then wOf L k ((BuildBasisNk L k).getD r 0, mh) else 0)).sum := by
  rw [accEntry_eq_contribSum, contribList, contrib_filter_sum]
  rw [sum_basis_single (BuildBasisNk L k) (buildBasisNk_nodup L k) r hr]
  · rw [inner_sum_ite]
  · intro n hn hidx
    have hfil : ((ActingH n L J g).map (fun mh => (n, mh))).filter
        (fun cc => keyOf L (BuildBasisNk L k) cc = some (a, r)) = [] := by
      rw [List.filter_eq_nil_iff]
      intro cc hcc hkey
      simp only [decide_eq_true_eq] at hkey
      obtain ⟨mh, hmh, rfl⟩ := List.mem_map.mp hcc
      rw [keyOf] at hkey
      by_cases hrep : repOf L mh.1 ∈ BuildBasisNk L k
      · rw [if_pos hrep, Option.some_inj, Prod.ext_iff] at hkey
        exact hidx hkey.2
      · rw [if_neg hrep] at hkey
        cases hkey
    rw [hfil, List.map_nil, List.sum_nil]

theorem distOf_eq_zero (L n : ℕ) (hL : 0 < L) (hn : n < 2 ^ L)
    (hrep : repOf L n = n) : distOf L n = 0 := by
  have hlen : 0 < (Tlist L n).length := by
    rw [Tlist_length]
    omega
  have hg : (Tlist L n).get ⟨0, hlen⟩ = repOf L n := by
    rw [Tlist_get, rotL_zero n L hn, hrep]
  have := indexOf_le_of_get _ _ 0 hlen hg
  rw [distOf]
  omega

theorem wOf_diag (L k n : ℕ) (x : ℝ) (hd : distOf L n = 0)
    (hR : 0 < periodOf L n) : wOf L k (n, (n, x)) = (x : ℂ) := by
  rw [wOf]
  have harg : Complex.I * (k : ℂ) * ((distOf L n : ℕ) : ℂ) * 2 * (Real.pi : ℂ) /
      (L : ℂ) = 0 := by
    rw [hd]
    push_cast
    ring
  rw [harg, Complex.exp_zero, mul_one]
  have hRpos : (0 : ℝ) < (periodOf L n : ℝ) := by exact_mod_cast hR
  have hs : Real.sqrt (periodOf L n : ℝ) ≠ 0 := ne_of_gt (Real.sqrt_pos.mpr hRpos)
  rw [mul_div_assoc, div_self (Complex.ofReal_ne_zero.mpr hs), mul_one]

theorem wOf_zero (L k : ℕ) (c : ℕ × ℕ × ℝ) (h : c.2.2 = 0) : wOf L k c = 0 := by
  rw [wOf, h]
  simp

theorem basis_getD_facts (L k b : ℕ) (hb : b < (BuildBasisNk L k).length) :
    (BuildBasisNk L k).getD b 0 ∈ BuildBasisNk L k ∧
    (BuildBasisNk L k).getD b 0 < 2 ^ L ∧
    repOf L ((BuildBasisNk L k).getD b 0) = (BuildBasisNk L k).getD b 0 ∧
    (BuildBasisNk L k).indexOf ((BuildBasisNk L k).getD b 0) = b := by
  have hmem := getD_mem (BuildBasisNk L k) 0 b hb
  have h2 := (buildBasisNk_mem L k _).mp hmem
  exact ⟨hmem, h2.1, h2.2.1, indexOf_getD_nodup _ (buildBasisNk_nodup L k) b hb⟩

theorem countBit_repOf (L m : ℕ) (hL : 0 < L) (hm : m < 2 ^ L) :
    CountBit (repOf L m) = CountBit m := by
  obtain ⟨s, hs, he⟩ := repOf_exists L m
  rw [he]
  exact countBit_rotL L s m hL hm hs

theorem flip_key_ne_diag (L k : ℕ) (i b : ℕ) (hL : 1 ≤ L) (hi : i < L)
    (hb : b < (BuildBasisNk L k).length) (x : ℝ) :
    keyOf L (BuildBasisNk L k)
      ((BuildBasisNk L k).getD b 0,
        ((BuildBasisNk L k).getD b 0 ^^^ (1 <<< i), x)) ≠
    some (b, b) := by
  obtain ⟨hmem, hlt, hrep, hidx⟩ := basis_getD_facts L k b hb
  intro hkey
  rw [keyOf] at hkey
  by_cases hrp : repOf L ((BuildBasisNk L k).getD b 0 ^^^ (1 <<< i)) ∈
      BuildBasisNk L k
  · rw [if_pos hrp, Option.some_inj, Prod.ext_iff] at hkey
    simp only at hkey
    have hflip_lt : (BuildBasisNk L k).getD b 0 ^^^ (1 <<< i) < 2 ^ L := by
      rw [Nat.one_shiftLeft]
      exact Nat.xor_lt_two_pow hlt (Nat.pow_lt_pow_right (by norm_num) hi)
    have heq : repOf L ((BuildBasisNk L k).getD b 0 ^^^ (1 <<< i)) =
        (BuildBasisNk L k).getD b 0 := by
      have h1 := getD_indexOf_beq hrp (0 : ℕ)
      rw [hkey.1] at h1
      exact h1.symm
    have hcb : CountBit ((BuildBasisNk L k).getD b 0 ^^^ (1 <<< i)) =
        CountBit ((BuildBasisNk L k).getD b 0) := by
      calc CountBit ((BuildBasisNk L k).getD b 0 ^^^ (1 <<< i))
          = CountBit (repOf L ((BuildBasisNk L k).getD b 0 ^^^ (1 <<< i))) :=
            (countBit_repOf L _ hL hflip_lt).symm
        _ = CountBit ((BuildBasisNk L k).getD b 0) := by rw [heq]
    exact countBit_flip_ne L i _ hi hlt hcb
  · rw [if_neg hrp] at hkey
    cases hkey

theorem diag_key_eq (L k : ℕ) (b : ℕ) (hb : b < (BuildBasisNk L k).length)
    (x : ℝ) :
    keyOf L (BuildBasisNk L k)
      ((BuildBasisNk L k).getD b 0, ((BuildBasisNk L k).getD b 0, x)) =
    some (b, b) := by
  obtain ⟨hmem, hlt, hrep, hidx⟩ := basis_getD_facts L k b hb
  rw [keyOf]
  simp only
  rw [hrep, if_pos hmem, hidx]

theorem diag_entry (L k : ℕ) (J g : ℝ) (hL : 1 ≤ L) (b : ℕ)
    (hb : b < (BuildBasisNk L k).length) :
    accEntry (BuildHNk L k J g) b b =
    ((isingDiag ((BuildBasisNk L k).getD b 0) L J : ℝ) : ℂ) := by
  obtain ⟨hmem, hlt, hrep, hidx⟩ := basis_getD_facts L k b hb
  rw [accEntry_row L k J g b b hb, actingH_unfold, List.map_append,
    List.sum_append, List.map_map]
  have hflips : ((List.range L).map
      ((fun mh => if keyOf L (BuildBasisNk L k)
        ((BuildBasisNk L k).getD b 0, mh) = some (b, b)
        then wOf L k ((BuildBasisNk L k).getD b 0, mh) else 0) ∘
        (fun i => ((BuildBasisNk L k).getD b 0 ^^^ (1 <<< i), -J * g)))).sum =
      0 := by
    apply List.sum_eq_zero
    intro y hy
    obtain ⟨i, hi, rfl⟩ := List.mem_map.mp hy
    rw [List.mem_range] at hi
    simp only [Function.comp]
    rw [if_neg (flip_key_ne_diag L k i b hL hi hb (-J * g))]
  rw [hflips, zero_add, List.map_cons, List.map_nil, List.sum_cons,
    List.sum_nil, add_zero,
    if_pos (diag_key_eq L k b hb (isingDiag ((BuildBasisNk L k).getD b 0) L J)),
    wOf_diag _ _ _ _ (distOf_eq_zero L _ hL hlt hrep) (periodOf_pos L _)]

/-- C8: with g = 0 every off-diagonal accumulated entry of the sector
matrix vanishes and the diagonal carries the classical Ising energies. -/
theorem g_zero_diagonal (L k : ℕ) (J : ℝ) (hL : 1 ≤ L) (hk : k < L) (hJ : 0 ≤ J)
    (a b : ℕ) (ha : a < (BuildBasisNk L k).length)
    (hb : b < (BuildBasisNk L k).length) :
    (a ≠ b → accEntry (BuildHNk L k J 0) b a = 0) ∧
    accEntry (BuildHNk L k J 0) b b =
      ((isingDiag ((BuildBasisNk L k).getD b 0) L J : ℝ) : ℂ) := by
  refine ⟨?_, diag_entry L k J 0 hL b hb⟩
  intro hab
  rw [accEntry_row L k J 0 b a hb, actingH_unfold, List.map_append,
    List.sum_append, List.map_map]
  have hflips : ((List.range L).map
      ((fun mh => if keyOf L (BuildBasisNk L k)
        ((BuildBasisNk L k).getD b 0, mh) = some (a, b)
        then wOf L k ((BuildBasisNk L k).getD b 0, mh) else 0) ∘
        (fun i => ((BuildBasisNk L k).getD b 0 ^^^ (1 <<< i), -J * 0)))).sum =
      0 := by
    apply List.sum_eq_zero
    intro y hy
    obtain ⟨i, hi, rfl⟩ := List.mem_map.mp hy
    simp only [Function.comp]
    by_cases hc : keyOf L (BuildBasisNk L k)
        ((BuildBasisNk L k).getD b 0,
          ((BuildBasisNk L k).getD b 0 ^^^ (1 <<< i), -J * 0)) = some (a, b)
    · rw [if_pos hc]
      apply wOf_zero
      show -J * 0 = 0
      ring
    · rw [if_neg hc]
  rw [hflips, zero_add, List.map_cons, List.map_nil, List.sum_cons,
    List.sum_nil, add_zero, if_neg]
  rw [diag_key_eq L k b hb]
  intro he
  rw [Option.some_inj, Prod.ext_iff] at he
  exact hab he.1.symm

theorem g_zero_diagonal_witness :
    ((1 : ℕ) ≤ 2 ∧ 0 < 2 ∧ (0 : ℝ) ≤ 1 ∧ 0 < (BuildBasisNk 2 0).length ∧
      1 < (BuildBasisNk 2 0).length) ∧
    ((0 ≠ 1 → accEntry (BuildHNk 2 0 1 0) 1 0 = 0) ∧
    accEntry (BuildHNk 2 0 1 0) 1 1 =
      ((isingDiag ((BuildBasisNk 2 0).getD 1 0) 2 1 : ℝ) : ℂ)) :=
  ⟨⟨by norm_num, by norm_num, by norm_num, by decide, by decide⟩,
    g_zero_diagonal 2 0 1 (by norm_num) (by norm_num) (by norm_num) 0 1
      (by decide) (by decide)⟩

/-- C9: exactly one triplet is accumulated at each diagonal cell (b, b),
its value is exactly the real Ising diagonal sum emitted by ActingH, and
hence every diagonal entry of every sector matrix is real. -/
theorem diagonal_entries (L k : ℕ) (J g : ℝ) (hL : 1 ≤ L) (hk : k < L)
    (b : ℕ) (hb : b < (BuildBasisNk L k).length) :
    tripletCount (BuildHNk L k J g) b b = 1 ∧
    accEntry (BuildHNk L k J g) b b =
      ((isingDiag ((BuildBasisNk L k).getD b 0) L J : ℝ) : ℂ) ∧
    (accEntry (BuildHNk L k J g) b b).im = 0 := by
  refine ⟨?_, diag_entry L k J g hL b hb, ?_⟩
  · rw [tripletCount_eq, if_pos]
    rw [List.mem_map]
    refine ⟨((BuildBasisNk L k).getD b 0,
      ((BuildBasisNk L k).getD b 0,
        isingDiag ((BuildBasisNk L k).getD b 0) L J)), ?_, ?_⟩
    · rw [contribList, List.mem_flatten]
      refine ⟨(ActingH ((BuildBasisNk L k).getD b 0) L J g).map
        (fun mh => ((BuildBasisNk L k).getD b 0, mh)), ?_, ?_⟩
      · rw [List.mem_map]
        exact ⟨(BuildBasisNk L k).getD b 0, getD_mem _ 0 b hb, rfl⟩
      · rw [List.mem_map]
        refine ⟨((BuildBasisNk L k).getD b 0,
          isingDiag ((BuildBasisNk L k).getD b 0) L J), ?_, rfl⟩
        rw [actingH_unfold]
        exact List.mem_append_right _ (List.mem_singleton.mpr rfl)
    · exact diag_key_eq L k b hb _
  · rw [diag_entry L k J g hL b hb, Complex.ofReal_im]

theorem diagonal_entries_witness :
    ((1 : ℕ) ≤ 2 ∧ 0 < 2 ∧ 1 < (BuildBasisNk 2 0).length) ∧
    (tripletCount (BuildHNk 2 0 1 1) 1 1 = 1 ∧
    accEntry (BuildHNk 2 0 1 1) 1 1 =
      ((isingDiag ((BuildBasisNk 2 0).getD 1 0) 2 1 : ℝ) : ℂ) ∧
    (accEntry (BuildHNk 2 0 1 1) 1 1).im = 0) :=
  ⟨⟨by norm_num, by norm_num, by decide⟩,
    diagonal_entries 2 0 1 1 (by norm_num) (by norm_num) 1 (by decide)⟩

theorem phase_add (L k s t : ℕ) : phase L k (s + t) = phase L k s * phase L k t := by
  rw [phase, phase, phase, ← Complex.exp_add]
  congr 1
  push_cast
  ring

theorem phase_one_of_dvd (L k s : ℕ) (hL : 0 < L) (h : L ∣ k * s) :
    phase L k s = 1 := by
  obtain ⟨m, hm⟩ := h
  rw [phase]
  have hL0 : (L : ℂ) ≠ 0 := Nat.cast_ne_zero.mpr (by omega)
  have hks : (k : ℂ) * (s : ℂ) = (L : ℂ) * (m : ℂ) := by
    have : ((k * s : ℕ) : ℂ) = ((L * m : ℕ) : ℂ) := by
      rw [hm]
    push_cast at this
    exact this
  have harg : Complex.I * (k : ℂ) * (s : ℂ) * 2 * (Real.pi : ℂ) / (L : ℂ) =
      ((m : ℤ) : ℂ) * (2 * (Real.pi : ℂ) * Complex.I) := by
    rw [div_eq_iff hL0]
    push_cast
    calc Complex.I * (k : ℂ) * (s : ℂ) * 2 * (Real.pi : ℂ)
        = ((k : ℂ) * (s : ℂ)) * (2 * (Real.pi : ℂ) * Complex.I) := by ring
      _ = ((L : ℂ) * (m : ℂ)) * (2 * (Real.pi : ℂ) * Complex.I) := by rw [hks]
      _ = (m : ℂ) * (2 * (Real.pi : ℂ) * Complex.I) * (L : ℂ) := by ring
  rw [harg]
  exact Complex.exp_int_mul_two_pi_mul_I m

theorem phase_zero (L k : ℕ) : phase L k 0 = 1 := by
  rw [phase]
  have harg : Complex.I * (k : ℂ) * ((0 : ℕ) : ℂ) * 2 * (Real.pi : ℂ) / (L : ℂ) =
      0 := by
    push_cast
    ring
  rw [harg, Complex.exp_zero]

theorem phase_conj (L k s : ℕ) (hL : 0 < L) (hs : s ≤ L) :
    (starRingEnd ℂ) (phase L k s) = phase L k (L - s) := by
  have h1 : phase L k s * phase L k (L - s) = 1 := by
    rw [← phase_add]
    have he : s + (L - s) = L := by omega
    rw [he]
    exact phase_one_of_dvd L k L hL ⟨k, by ring⟩
  have h2 : (starRingEnd ℂ) (phase L k s) * phase L k s = 1 := by
    rw [phase, ← Complex.exp_conj, ← Complex.exp_add]
    have harg : (starRingEnd ℂ)
        (Complex.I * (k : ℂ) * (s : ℂ) * 2 * (Real.pi : ℂ) / (L : ℂ)) +
        Complex.I * (k : ℂ) * (s : ℂ) * 2 * (Real.pi : ℂ) / (L : ℂ) = 0 := by
      rw [map_div₀, map_mul, map_mul, map_mul, map_mul, Complex.conj_I,
        map_natCast, map_natCast, Complex.conj_ofReal, map_ofNat, map_natCast]
      ring
    rw [harg, Complex.exp_zero]
  calc (starRingEnd ℂ) (phase L k s)
      = (starRingEnd ℂ) (phase L k s) * (phase L k s * phase L k (L - s)) := by
        rw [h1, mul_one]
    _ = ((starRingEnd ℂ) (phase L k s) * phase L k s) * phase L k (L - s) := by
        ring
    _ = phase L k (L - s) := by rw [h2, one_mul]

theorem list_sum_const_real (l : List ℕ) (c : ℝ) :
    (l.map (fun _ => c)).sum = (l.length : ℝ) * c := by
  induction l with
  | nil => simp
  | cons a t ih =>
      rw [List.map_cons, List.sum_cons, ih, List.length_cons]
      push_cast
      ring

theorem ampl_closed (L : ℕ) (J g : ℝ) (x y : ℕ) :
    ampl L J g x y =
    (((List.range L).filter (fun i => y ^^^ (1 <<< i) == x)).length : ℝ) *
      (-J * g) +
    (if y = x then isingDiag y L J else 0) := by
  rw [ampl, actingH_unfold, List.filter_append, List.map_append, List.sum_append]
  congr 1
  · rw [List.filter_map, List.map_map]
    have hc : (Prod.snd ∘ fun i : ℕ => (y ^^^ (1 <<< i), -J * g)) =
        fun _ : ℕ => -J * g := rfl
    rw [hc, list_sum_const_real]
    rfl
  · by_cases he : y = x
    · have hb : (y == x) = true := beq_iff_eq.mpr he
      rw [if_pos he]
      simp only [List.filter_cons, List.filter_nil, hb]
      simp
    · have hb : (y == x) = false := beq_false_of_ne he
      rw [if_neg he]
      simp only [List.filter_cons, List.filter_nil, hb]
      simp

theorem ampl_symm (L : ℕ) (J g : ℝ) (x y : ℕ) : ampl L J g x y = ampl L J g y x := by
  rw [ampl_closed, ampl_closed]
  have hcnt : ((List.range L).filter (fun i => y ^^^ (1 <<< i) == x)).length =
      ((List.range L).filter (fun i => x ^^^ (1 <<< i) == y)).length := by
    congr 1
    apply List.filter_congr
    intro i _
    by_cases h : y ^^^ (1 <<< i) = x
    · have h2 : x ^^^ (1 <<< i) = y := by
        rw [← h, Nat.xor_assoc, Nat.xor_self, Nat.xor_zero]
      rw [beq_iff_eq.mpr h, beq_iff_eq.mpr h2]
    · have h2 : x ^^^ (1 <<< i) ≠ y := by
        intro he
        apply h
        rw [← he, Nat.xor_assoc, Nat.xor_self, Nat.xor_zero]
      rw [beq_false_of_ne h, beq_false_of_ne h2]
  rw [hcnt]
  have hdiag : (if y = x then isingDiag y L J else 0) =
      (if x = y then isingDiag x L J else 0) := by
    by_cases he : y = x
    · subst he
      rfl
    · rw [if_neg he, if_neg (Ne.symm he)]
  rw [hdiag]

theorem rotL_xor_pow (L s i y : ℕ) (hL : 0 < L) (hy : y < 2 ^ L) (hs : s ≤ L)
    (hi : i < L) :
    RotLBit (y ^^^ (1 <<< i)) L s = RotLBit y L s ^^^ (1 <<< ((i + s) % L)) := by
  have hflip : y ^^^ (1 <<< i) < 2 ^ L := by
    rw [Nat.one_shiftLeft]
    exact Nat.xor_lt_two_pow hy (Nat.pow_lt_pow_right (by norm_num) hi)
  have hrot : RotLBit y L s < 2 ^ L := rotL_lt y L s hy hs
  have hpow : (1 <<< ((i + s) % L)) < 2 ^ L := by
    rw [Nat.one_shiftLeft]
    exact Nat.pow_lt_pow_right (by norm_num) (Nat.mod_lt _ hL)
  apply bits_ext L _ _ (rotL_lt _ L s hflip hs) (Nat.xor_lt_two_pow hrot hpow)
  intro j hj
  rw [rotL_testBit _ L s j hflip hs hj, Nat.one_shiftLeft, Nat.one_shiftLeft,
    Nat.testBit_xor, Nat.testBit_xor, Nat.testBit_two_pow, Nat.testBit_two_pow,
    rotL_testBit y L s j hy hs hj]
  congr 1
  rw [decide_eq_decide]
  constructor
  · intro h
    subst h
    rw [Nat.mod_add_mod]
    have he : j + (L - s) + s = j + L := by omega
    rw [he, Nat.add_mod_right, Nat.mod_eq_of_lt hj]
  · intro h
    subst h
    rw [Nat.mod_add_mod]
    have he : i + s + (L - s) = i + L := by omega
    rw [he, Nat.add_mod_right, Nat.mod_eq_of_lt hi]

theorem rotL_inj (L s a b : ℕ) (hL : 0 < L) (ha : a < 2 ^ L) (hb : b < 2 ^ L)
    (hs : s ≤ L) (h : RotLBit a L s = RotLBit b L s) : a = b := by
  have h2 := congrArg (fun z => RotRBit z L s) h
  simpa [rotR_rotL a L s hL ha hs, rotR_rotL b L s hL hb hs] using h2

theorem readBit_rot (y L s j : ℕ) (hy : y < 2 ^ L) (hs : s ≤ L) (hj : j < L) :
    ReadBit (RotLBit y L s) j = ReadBit y ((j + (L - s)) % L) := by
  rw [readBit_eq, readBit_eq, rotL_testBit y L s j hy hs hj]

theorem isingDiag_rot (y L s : ℕ) (J : ℝ) (hL : 0 < L) (hy : y < 2 ^ L)
    (hs : s ≤ L) : isingDiag (RotLBit y L s) L J = isingDiag y L J := by
  rw [isingDiag, list_sum_map_range_real, isingDiag, list_sum_map_range_real]
  apply Finset.sum_nbij' (fun i => (i + (L - s)) % L) (fun i => (i + s) % L)
  · intro a ha
    exact Finset.mem_range.mpr (Nat.mod_lt _ hL)
  · intro a ha
    exact Finset.mem_range.mpr (Nat.mod_lt _ hL)
  · intro a ha
    rw [Finset.mem_range] at ha
    rw [Nat.mod_add_mod]
    have he : a + (L - s) + s = a + L := by omega
    rw [he, Nat.add_mod_right, Nat.mod_eq_of_lt ha]
  · intro a ha
    rw [Finset.mem_range] at ha
    rw [Nat.mod_add_mod]
    have he : a + s + (L - s) = a + L := by omega
    rw [he, Nat.add_mod_right, Nat.mod_eq_of_lt ha]
  · intro a ha
    rw [Finset.mem_range] at ha
    have h1 : ReadBit (RotLBit y L s) a = ReadBit y ((a + (L - s)) % L) :=
      readBit_rot y L s a hy hs ha
    have h2 : ReadBit (RotLBit y L s) ((a + 1) % L) =
        ReadBit y (((a + (L - s)) % L + 1) % L) := by
      rw [readBit_rot y L s _ hy hs (Nat.mod_lt _ hL)]
      congr 1
      rw [Nat.mod_add_mod, Nat.mod_add_mod]
      congr 1
      omega
    rw [h1, h2]

theorem flip_count_rot (L : ℕ) (x y s : ℕ) (hL : 0 < L) (hx : x < 2 ^ L)
    (hy : y < 2 ^ L) (hs : s ≤ L) :
    ((List.range L).filter
      (fun i => RotLBit y L s ^^^ (1 <<< i) == RotLBit x L s)).length =
    ((List.range L).filter (fun i => y ^^^ (1 <<< i) == x)).length := by
  have hcond : ∀ i, i < L →
      (RotLBit y L s ^^^ (1 <<< i) = RotLBit x L s ↔
        y ^^^ (1 <<< ((i + (L - s)) % L)) = x) := by
    intro i hi
    have hi2 : (i + (L - s)) % L < L := Nat.mod_lt _ hL
    have hi2s : ((i + (L - s)) % L + s) % L = i := by
      rw [Nat.mod_add_mod]
      have he : i + (L - s) + s = i + L := by omega
      rw [he, Nat.add_mod_right, Nat.mod_eq_of_lt hi]
    have he : RotLBit (y ^^^ (1 <<< ((i + (L - s)) % L))) L s =
        RotLBit y L s ^^^ (1 <<< i) := by
      rw [rotL_xor_pow L s _ y hL hy hs hi2, hi2s]
    have hflip : y ^^^ (1 <<< ((i + (L - s)) % L)) < 2 ^ L := by
      rw [Nat.one_shiftLeft]
      exact Nat.xor_lt_two_pow hy (Nat.pow_lt_pow_right (by norm_num) hi2)
    constructor
    · intro h
      rw [← he] at h
      exact rotL_inj L s _ x hL hflip hx hs h
    · intro h
      rw [← he, h]
  rw [length_filter_range, length_filter_range]
  apply Finset.card_nbij' (fun i => (i + (L - s)) % L) (fun i => (i + s) % L)
  · intro a ha
    simp only [Finset.mem_filter, Finset.mem_range] at ha ⊢
    obtain ⟨haL, hacond⟩ := ha
    refine ⟨Nat.mod_lt _ hL, ?_⟩
    rw [beq_iff_eq] at hacond ⊢
    exact (hcond a haL).mp hacond
  · intro a ha
    simp only [Finset.mem_filter, Finset.mem_range] at ha ⊢
    obtain ⟨haL, hacond⟩ := ha
    refine ⟨Nat.mod_lt _ hL, ?_⟩
    rw [beq_iff_eq] at hacond ⊢
    rw [← hacond]
    exact (rotL_xor_pow L s a y hL hy hs haL).symm
  · intro a ha
    simp only [Finset.mem_filter, Finset.mem_range] at ha
    rw [Nat.mod_add_mod]
    have he : a + (L - s) + s = a + L := by omega
    rw [he, Nat.add_mod_right, Nat.mod_eq_of_lt ha.1]
  · intro a ha
    simp only [Finset.mem_filter, Finset.mem_range] at ha
    rw [Nat.mod_add_mod]
    have he : a + s + (L - s) = a + L := by omega
    rw [he, Nat.add_mod_right, Nat.mod_eq_of_lt ha.1]

theorem ampl_rot (L : ℕ) (J g : ℝ) (x y s : ℕ) (hL : 0 < L) (hx : x < 2 ^ L)
    (hy : y < 2 ^ L) (hs : s ≤ L) :
    ampl L J g (RotLBit x L s) (RotLBit y L s) = ampl L J g x y := by
  rw [ampl_closed, ampl_closed, flip_count_rot L x y s hL hx hy hs]
  have hdiag : (if RotLBit y L s = RotLBit x L s
      then isingDiag (RotLBit y L s) L J else 0) =
      (if y = x then isingDiag y L J else 0) := by
    by_cases he : y = x
    · rw [if_pos (by rw [he]), if_pos he, isingDiag_rot y L s J hL hy hs]
    · rw [if_neg (fun hc => he (rotL_inj L s y x hL hy hx hs hc)), if_neg he]
  rw [hdiag]

theorem symSum_conj (L k : ℕ) (J g : ℝ) (x y : ℕ) (hL : 0 < L) (hx : x < 2 ^ L)
    (hy : y < 2 ^ L) :
    (starRingEnd ℂ) (symSum L k J g x y) = symSum L k J g y x := by
  rw [symSum, map_sum]
  have hterm : ∀ s ∈ Finset.range L,
      (starRingEnd ℂ) (phase L k s * (ampl L J g (RotLBit x L (L - s)) y : ℝ)) =
      phase L k (L - s) * ((ampl L J g (RotLBit x L (L - s)) y : ℝ) : ℂ) := by
    intro s hsr
    rw [Finset.mem_range] at hsr
    rw [map_mul, phase_conj L k s hL (le_of_lt hsr), Complex.conj_ofReal]
  rw [Finset.sum_congr rfl hterm, symSum]
  apply Finset.sum_nbij' (fun s => (L - s) % L) (fun s => (L - s) % L)
  · intro a ha
    exact Finset.mem_range.mpr (Nat.mod_lt _ hL)
  · intro a ha
    exact Finset.mem_range.mpr (Nat.mod_lt _ hL)
  · intro a ha
    rw [Finset.mem_range] at ha
    rcases Nat.eq_zero_or_pos a with h0 | h0
    · subst h0
      simp [Nat.mod_self]
    · have h1 : (L - a) % L = L - a := Nat.mod_eq_of_lt (by omega)
      rw [h1]
      have h2 : L - (L - a) = a := by omega
      rw [h2, Nat.mod_eq_of_lt ha]
  · intro a ha
    rw [Finset.mem_range] at ha
    rcases Nat.eq_zero_or_pos a with h0 | h0
    · subst h0
      simp [Nat.mod_self]
    · have h1 : (L - a) % L = L - a := Nat.mod_eq_of_lt (by omega)
      rw [h1]
      have h2 : L - (L - a) = a := by omega
      rw [h2, Nat.mod_eq_of_lt ha]
  · intro a ha
    rw [Finset.mem_range] at ha
    rcases Nat.eq_zero_or_pos a with h0 | h0
    · subst h0
      rw [Nat.sub_zero, Nat.mod_self, rotL_full, Nat.sub_zero, rotL_full,
        phase_zero, phase_one_of_dvd L k L hL ⟨k, by ring⟩, one_mul, one_mul]
      exact congrArg (fun r : ℝ => (r : ℂ)) (ampl_symm L J g x y)
    · have h1 : (L - a) % L = L - a := Nat.mod_eq_of_lt (by omega)
      rw [h1]
      have h2 : L - (L - a) = a := by omega
      rw [h2]
      have hrr : RotLBit (RotLBit x L (L - a)) L a = x := by
        rw [rotL_rotL x L a (L - a) hL hx (by omega) (by omega)]
        have h3 : (a + (L - a)) % L = 0 := by
          have h4 : a + (L - a) = L := by omega
          rw [h4, Nat.mod_self]
        rw [h3]
        exact rotL_zero x L hx
      have hampl : ampl L J g (RotLBit x L (L - a)) y =
          ampl L J g (RotLBit y L a) x := by
        have h3 := ampl_rot L J g (RotLBit x L (L - a)) y a hL
          (rotL_lt x L _ hx (by omega)) hy (by omega)
        rw [hrr] at h3
        rw [← h3]
        exact ampl_symm L J g x (RotLBit y L a)
      rw [hampl]

theorem actingH_targets_lt (n L : ℕ) (J g : ℝ) (hn : n < 2 ^ L) (mh : ℕ × ℝ)
    (hmh : mh ∈ ActingH n L J g) : mh.1 < 2 ^ L := by
  rw [actingH_unfold] at hmh
  rcases List.mem_append.mp hmh with h | h
  · obtain ⟨i, hi, rfl⟩ := List.mem_map.mp h
    rw [List.mem_range] at hi
    have h1 : 1 <<< i < 2 ^ L := by
      rw [Nat.one_shiftLeft]
      exact Nat.pow_lt_pow_right one_lt_two hi
    exact Nat.xor_lt_two_pow hn h1
  · rw [List.mem_singleton] at h
    subst h
    exact hn

theorem rot_shift_iff (L s m t : ℕ) (hL : 0 < L) (hm : m < 2 ^ L) (ht : t < 2 ^ L)
    (hs : s < L) : m = RotLBit t L (L - s) ↔ RotLBit m L s = t := by
  constructor
  · rintro rfl
    rw [rotL_rotL t L s (L - s) hL ht (le_of_lt hs) (by omega)]
    have h : (s + (L - s)) % L = 0 := by
      have h2 : s + (L - s) = L := by omega
      rw [h2, Nat.mod_self]
    rw [h]
    exact rotL_zero t L ht
  · rintro rfl
    rw [rotL_rotL m L (L - s) s hL hm (by omega) (le_of_lt hs)]
    have h : (L - s + s) % L = 0 := by
      have h2 : L - s + s = L := by omega
      rw [h2, Nat.mod_self]
    rw [h]
    exact (rotL_zero m L hm).symm

theorem filter_map_sum_ite (l : List (ℕ × ℝ)) (x : ℕ) :
    ((l.filter (fun mh => mh.1 == x)).map Prod.snd).sum =
    (l.map (fun mh => if mh.1 = x then mh.2 else 0)).sum := by
  induction l with
  | nil => rfl
  | cons a l ih =>
    by_cases h : a.1 = x
    · rw [List.filter_cons_of_pos (by simp [h]), List.map_cons, List.sum_cons,
        List.map_cons, List.sum_cons, if_pos h, ih]
    · rw [List.filter_cons_of_neg (by simp [h]), List.map_cons, List.sum_cons,
        if_neg h, ih, zero_add]

theorem ampl_ite (L : ℕ) (J g : ℝ) (x y : ℕ) :
    ampl L J g x y =
    ((ActingH y L J g).map (fun mh => if mh.1 = x then mh.2 else 0)).sum := by
  rw [ampl, filter_map_sum_ite]

theorem list_sum_ofReal (l : List (ℕ × ℝ)) (f : (ℕ × ℝ) → ℝ) :
    (((l.map f).sum : ℝ) : ℂ) = (l.map (fun x => ((f x : ℝ) : ℂ))).sum := by
  induction l with
  | nil => simp
  | cons a l ih => simp [ih]

theorem list_sum_map_mul_left (l : List (ℕ × ℝ)) (c : ℂ) (f : (ℕ × ℝ) → ℂ) :
    (l.map (fun x => c * f x)).sum = c * (l.map f).sum := by
  induction l with
  | nil => simp
  | cons a l ih => simp [ih, mul_add]

theorem list_map_sum_congr (l : List (ℕ × ℝ)) (f f2 : (ℕ × ℝ) → ℂ)
    (h : ∀ x ∈ l, f x = f2 x) : (l.map f).sum = (l.map f2).sum := by
  induction l with
  | nil => rfl
  | cons a l ih =>
    rw [List.map_cons, List.sum_cons, List.map_cons, List.sum_cons,
      h a (List.mem_cons_self a l),
      ih (fun x hx => h x (List.mem_cons_of_mem a hx))]

theorem finset_sum_list_sum (t : Finset ℕ) (l : List (ℕ × ℝ))
    (f : ℕ → (ℕ × ℝ) → ℂ) :
    ∑ s in t, (l.map (f s)).sum = (l.map (fun x => ∑ s in t, f s x)).sum := by
  induction l with
  | nil => simp
  | cons a l ih => simp [Finset.sum_add_distrib, ih]

theorem char_sum (L k m t : ℕ) (hL : 0 < L) (hm : m < 2 ^ L) (hrt : repOf L t = t)
    (hdvd : L ∣ k * periodOf L t) :
    (∑ s in Finset.range L, if RotLBit m L s = t then phase L k s else 0) =
    if repOf L m = t then ((L / periodOf L t : ℕ) : ℂ) * phase L k (distOf L m)
    else 0 := by
  by_cases hrep : repOf L m = t
  · rw [if_pos hrep]
    have hR : periodOf L m = periodOf L t := by
      obtain ⟨s, hs, he⟩ := repOf_exists L m
      rw [← hrep, he, rotL_eq_rotMod L s m hL hm hs, periodOf_rotMod L m s hL hm]
    have hdvdm : L ∣ k * periodOf L m := by rw [hR]; exact hdvd
    have hRpos : 0 < periodOf L m := periodOf_pos L m
    have hdR : distOf L m < periodOf L m := distOf_lt_periodOf L m hL hm
    have hRL : periodOf L m ∣ L := periodOf_dvd L m hL hm
    have hcond : ∀ s ∈ Finset.range L,
        (if RotLBit m L s = t then phase L k s else 0) =
        (if s % periodOf L m = distOf L m then phase L k s else 0) := by
      intro s hsr
      rw [Finset.mem_range] at hsr
      rw [← hrep]
      by_cases h : s % periodOf L m = distOf L m
      · rw [if_pos ((rot_eq_repOf_iff L m s hL hm hsr).mpr h), if_pos h]
      · rw [if_neg (fun hc => h ((rot_eq_repOf_iff L m s hL hm hsr).mp hc)),
          if_neg h]
    rw [Finset.sum_congr rfl hcond, ← Finset.sum_filter]
    have hinj : ∀ x ∈ Finset.range (L / periodOf L m),
        ∀ y ∈ Finset.range (L / periodOf L m),
        distOf L m + x * periodOf L m = distOf L m + y * periodOf L m → x = y := by
      intro x hx y hy hxy
      have h1 : x * periodOf L m = y * periodOf L m := by omega
      exact Nat.eq_of_mul_eq_mul_right hRpos h1
    have himg : (Finset.range L).filter (fun s => s % periodOf L m = distOf L m) =
        (Finset.range (L / periodOf L m)).image
          (fun j => distOf L m + j * periodOf L m) := by
      ext s
      simp only [Finset.mem_filter, Finset.mem_range, Finset.mem_image]
      constructor
      · rintro ⟨hsL, hsd⟩
        refine ⟨s / periodOf L m, Nat.div_lt_div_of_lt_of_dvd hRL hsL, ?_⟩
        have h1 := Nat.div_add_mod s (periodOf L m)
        rw [hsd] at h1
        conv_rhs => rw [← h1]
        ring
      · rintro ⟨j, hj, rfl⟩
        constructor
        · have hj1 : j + 1 ≤ L / periodOf L m := hj
          have h1 : (j + 1) * periodOf L m ≤ (L / periodOf L m) * periodOf L m :=
            Nat.mul_le_mul_right _ hj1
          have h2 : (L / periodOf L m) * periodOf L m = L := Nat.div_mul_cancel hRL
          have h3 : distOf L m + j * periodOf L m < (j + 1) * periodOf L m := by
            have : (j + 1) * periodOf L m = j * periodOf L m + periodOf L m := by
              ring
            omega
          omega
        · rw [Nat.add_mul_mod_self_right, Nat.mod_eq_of_lt hdR]
    rw [himg, Finset.sum_image hinj]
    have hterm : ∀ j ∈ Finset.range (L / periodOf L m),
        phase L k (distOf L m + j * periodOf L m) = phase L k (distOf L m) := by
      intro j hj
      rw [phase_add, phase_one_of_dvd L k (j * periodOf L m) hL ?_, mul_one]
      have h1 : k * (j * periodOf L m) = k * periodOf L m * j := by ring
      rw [h1]
      exact hdvdm.mul_right j
    rw [Finset.sum_congr rfl hterm, Finset.sum_const, Finset.card_range,
      nsmul_eq_mul, hR]
  · rw [if_neg hrep]
    apply Finset.sum_eq_zero
    intro s hsr
    rw [Finset.mem_range] at hsr
    rw [if_neg]
    intro hc
    apply hrep
    have h1 : repOf L (RotLBit m L s) = repOf L m := by
      rw [rotL_eq_rotMod L s m hL hm (le_of_lt hsr)]
      exact repOf_rotMod L m s hL hm
    rw [← h1, hc]
    exact hrt

theorem symSum_row (L k : ℕ) (J g : ℝ) (nr nc : ℕ) (hL : 0 < L)
    (hnr : nr < 2 ^ L) (hnc : nc < 2 ^ L) (hrep : repOf L nc = nc)
    (hdvd : L ∣ k * periodOf L nc) :
    symSum L k J g nc nr =
    ((ActingH nr L J g).map (fun mh =>
      if repOf L mh.1 = nc then ((L / periodOf L nc : ℕ) : ℂ) *
        ((mh.2 : ℂ) * phase L k (distOf L mh.1)) else 0)).sum := by
  rw [symSum]
  have h1 : ∀ s ∈ Finset.range L,
      phase L k s * ((ampl L J g (RotLBit nc L (L - s)) nr : ℝ) : ℂ) =
      ((ActingH nr L J g).map (fun mh =>
        if mh.1 = RotLBit nc L (L - s) then phase L k s * (mh.2 : ℂ)
        else 0)).sum := by
    intro s hs
    rw [ampl_ite, list_sum_ofReal, ← list_sum_map_mul_left]
    apply list_map_sum_congr
    intro mh hmh
    by_cases h : mh.1 = RotLBit nc L (L - s)
    · rw [if_pos h, if_pos h]
    · rw [if_neg h, if_neg h, Complex.ofReal_zero, mul_zero]
  rw [Finset.sum_congr rfl h1, finset_sum_list_sum]
  apply list_map_sum_congr
  intro mh hmh
  have hmlt : mh.1 < 2 ^ L := actingH_targets_lt nr L J g hnr mh hmh
  have h2 : ∀ s ∈ Finset.range L,
      (if mh.1 = RotLBit nc L (L - s) then phase L k s * (mh.2 : ℂ) else 0) =
      (mh.2 : ℂ) * (if RotLBit mh.1 L s = nc then phase L k s else 0) := by
    intro s hs
    rw [Finset.mem_range] at hs
    by_cases h : RotLBit mh.1 L s = nc
    · rw [if_pos ((rot_shift_iff L s mh.1 nc hL hmlt hnc hs).mpr h), if_pos h,
        mul_comm]
    · rw [if_neg (fun hc =>
        h ((rot_shift_iff L s mh.1 nc hL hmlt hnc hs).mp hc)), if_neg h,
        mul_zero]
  rw [Finset.sum_congr rfl h2, ← Finset.mul_sum,
    char_sum L k mh.1 nc hL hmlt hrep hdvd]
  by_cases h : repOf L mh.1 = nc
  · rw [if_pos h, if_pos h]
    ring
  · rw [if_neg h, if_neg h, mul_zero]

theorem row_sum_value (L k : ℕ) (J g : ℝ) (r c nr nc : ℕ) (hL : 0 < L)
    (hnrlt : nr < 2 ^ L) (hnclt : nc < 2 ^ L)
    (hcmem : nc ∈ BuildBasisNk L k)
    (hcidx : (BuildBasisNk L k).indexOf nc = c)
    (hridx : (BuildBasisNk L k).indexOf nr = r)
    (hcrep : repOf L nc = nc) (hcdvd : L ∣ k * periodOf L nc)
    (hcd : (BuildBasisNk L k).getD c 0 = nc) :
    ((L : ℕ) : ℂ) * ((ActingH nr L J g).map (fun mh =>
      if keyOf L (BuildBasisNk L k) (nr, mh) = some (c, r)
      then wOf L k (nr, mh) else 0)).sum =
    ((Real.sqrt (periodOf L nc) : ℝ) : ℂ) *
      ((Real.sqrt (periodOf L nr) : ℝ) : ℂ) * symSum L k J g nc nr := by
  have hkey : ∀ mh : ℕ × ℝ,
      keyOf L (BuildBasisNk L k) (nr, mh) = some (c, r) ↔
      repOf L mh.1 = nc := by
    intro mh
    rw [keyOf]
    constructor
    · intro h
      by_cases hmem : repOf L mh.1 ∈ BuildBasisNk L k
      · rw [if_pos hmem, Option.some_inj] at h
        have h1 : (BuildBasisNk L k).getD
            ((BuildBasisNk L k).indexOf (repOf L mh.1)) 0 = repOf L mh.1 :=
          getD_indexOf_beq hmem 0
        have h2 : (BuildBasisNk L k).indexOf (repOf L mh.1) = c :=
          congrArg Prod.fst h
        rw [h2] at h1
        rw [← h1]
        exact hcd
      · rw [if_neg hmem] at h
        cases h
    · intro h
      rw [h, if_pos hcmem, hcidx, hridx]
  have hval : ∀ mh ∈ ActingH nr L J g,
      (if keyOf L (BuildBasisNk L k) (nr, mh) = some (c, r)
        then wOf L k (nr, mh) else 0) =
      (((Real.sqrt (periodOf L nr) : ℝ) : ℂ) /
          ((Real.sqrt (periodOf L nc) : ℝ) : ℂ)) *
        (if repOf L mh.1 = nc then (mh.2 : ℂ) * phase L k (distOf L mh.1)
         else 0) := by
    intro mh hmh
    by_cases h : repOf L mh.1 = nc
    · rw [if_pos ((hkey mh).mpr h), if_pos h]
      have hmlt : mh.1 < 2 ^ L := actingH_targets_lt nr L J g hnrlt mh hmh
      have hR : periodOf L mh.1 = periodOf L nc := by
        obtain ⟨s, hs, he⟩ := repOf_exists L mh.1
        rw [← h, he, rotL_eq_rotMod L s mh.1 hL hmlt hs,
          periodOf_rotMod L mh.1 s hL hmlt]
      simp only [wOf, phase]
      rw [hR]
      ring
    · rw [if_neg (fun hc2 => h ((hkey mh).mp hc2)), if_neg h, mul_zero]
  rw [list_map_sum_congr _ _ _ hval, list_sum_map_mul_left,
    symSum_row L k J g nr nc hL hnrlt hnclt hcrep hcdvd]
  have hpull : ∀ mh ∈ ActingH nr L J g,
      (if repOf L mh.1 = nc then ((L / periodOf L nc : ℕ) : ℂ) *
        ((mh.2 : ℂ) * phase L k (distOf L mh.1)) else 0) =
      ((L / periodOf L nc : ℕ) : ℂ) *
        (if repOf L mh.1 = nc then (mh.2 : ℂ) * phase L k (distOf L mh.1)
         else 0) := by
    intro mh hmh
    by_cases h : repOf L mh.1 = nc
    · rw [if_pos h, if_pos h]
    · rw [if_neg h, if_neg h, mul_zero]
  rw [list_map_sum_congr _ _ _ hpull, list_sum_map_mul_left]
  have hRpos : 0 < periodOf L nc := periodOf_pos L nc
  have hdvdR : periodOf L nc ∣ L := periodOf_dvd L nc hL hnclt
  have hmulL : L / periodOf L nc * periodOf L nc = L := Nat.div_mul_cancel hdvdR
  have hcast : ((L / periodOf L nc : ℕ) : ℂ) * ((periodOf L nc : ℕ) : ℂ) =
      ((L : ℕ) : ℂ) := by
    rw [← Nat.cast_mul, hmulL]
  have hsq : ((Real.sqrt (periodOf L nc) : ℝ) : ℂ) *
      ((Real.sqrt (periodOf L nc) : ℝ) : ℂ) = ((periodOf L nc : ℕ) : ℂ) := by
    rw [← Complex.ofReal_mul, Real.mul_self_sqrt (Nat.cast_nonneg _)]
    norm_cast
  have hsne : ((Real.sqrt (periodOf L nc) : ℝ) : ℂ) ≠ 0 := by
    rw [Complex.ofReal_ne_zero]
    refine ne_of_gt (Real.sqrt_pos.mpr ?_)
    exact_mod_cast hRpos
  have hscal : ((L : ℕ) : ℂ) * (((Real.sqrt (periodOf L nr) : ℝ) : ℂ) /
      ((Real.sqrt (periodOf L nc) : ℝ) : ℂ)) =
      ((Real.sqrt (periodOf L nc) : ℝ) : ℂ) *
        ((Real.sqrt (periodOf L nr) : ℝ) : ℂ) *
        ((L / periodOf L nc : ℕ) : ℂ) := by
    have h1 : ((L : ℕ) : ℂ) = ((L / periodOf L nc : ℕ) : ℂ) *
        (((Real.sqrt (periodOf L nc) : ℝ) : ℂ) *
          ((Real.sqrt (periodOf L nc) : ℝ) : ℂ)) := by
      rw [hsq, hcast]
    have h2 : ((Real.sqrt (periodOf L nc) : ℝ) : ℂ) *
        (((Real.sqrt (periodOf L nr) : ℝ) : ℂ) /
          ((Real.sqrt (periodOf L nc) : ℝ) : ℂ)) =
        ((Real.sqrt (periodOf L nr) : ℝ) : ℂ) := by
      rw [mul_comm]
      exact div_mul_cancel₀ _ hsne
    rw [h1, mul_assoc, mul_assoc, h2]
    ring
  conv_lhs => rw [← mul_assoc]
  conv_rhs => rw [← mul_assoc]
  rw [hscal]

theorem entry_symSum (L k : ℕ) (J g : ℝ) (r c : ℕ) (hL : 0 < L)
    (hr : r < (BuildBasisNk L k).length) (hc : c < (BuildBasisNk L k).length) :
    ((L : ℕ) : ℂ) * accEntry (BuildHNk L k J g) r c =
    ((Real.sqrt (periodOf L ((BuildBasisNk L k).getD c 0)) : ℝ) : ℂ) *
      ((Real.sqrt (periodOf L ((BuildBasisNk L k).getD r 0)) : ℝ) : ℂ) *
      symSum L k J g ((BuildBasisNk L k).getD c 0)
        ((BuildBasisNk L k).getD r 0) := by
  obtain ⟨hrmem, hrlt, hrrep, hridx⟩ := basis_getD_facts L k r hr
  obtain ⟨hcmem, hclt, hcrep, hcidx⟩ := basis_getD_facts L k c hc
  have hcdvd : L ∣ k * periodOf L ((BuildBasisNk L k).getD c 0) :=
    Nat.dvd_of_mod_eq_zero ((buildBasisNk_mem L k _).mp hcmem).2.2
  rw [accEntry_row L k J g r c hr]
  exact row_sum_value L k J g r c _ _ hL hrlt hclt hcmem hcidx hridx hcrep
    hcdvd rfl

/-- C1: the assembled sector matrix is Hermitian in exact arithmetic: for
any row index b and column index a below the sector dimension, the
accumulated entry at (b, a) equals the complex conjugate of the
accumulated entry at (a, b). -/
theorem BuildHNk_hermitian (L k : ℕ) (J g : ℝ) (hL : 1 ≤ L) (a b : ℕ)
    (ha : a < (BuildHNk L k J g).dim) (hb : b < (BuildHNk L k J g).dim) :
    accEntry (BuildHNk L k J g) b a =
      (starRingEnd ℂ) (accEntry (BuildHNk L k J g) a b) := by
  have hL0 : 0 < L := hL
  have hdim : (BuildHNk L k J g).dim = (BuildBasisNk L k).length := rfl
  rw [hdim] at ha hb
  obtain ⟨hamem, halt, harep, haidx⟩ := basis_getD_facts L k a ha
  obtain ⟨hbmem, hblt, hbrep, hbidx⟩ := basis_getD_facts L k b hb
  have h1 := entry_symSum L k J g b a hL0 hb ha
  have h2 := entry_symSum L k J g a b hL0 ha hb
  have h3 := congrArg (starRingEnd ℂ) h2
  simp only [map_mul] at h3
  rw [map_natCast, Complex.conj_ofReal, Complex.conj_ofReal,
    symSum_conj L k J g ((BuildBasisNk L k).getD b 0)
      ((BuildBasisNk L k).getD a 0) hL0 hblt halt] at h3
  have hLne : ((L : ℕ) : ℂ) ≠ 0 := Nat.cast_ne_zero.mpr (by omega)
  apply mul_left_cancel₀ hLne
  rw [h1, h3]
  ring

theorem BuildHNk_hermitian_witness :
    1 ≤ 2 ∧ 0 < (BuildHNk 2 0 1 1).dim ∧ 1 < (BuildHNk 2 0 1 1).dim ∧
    accEntry (BuildHNk 2 0 1 1) 1 0 =
      (starRingEnd ℂ) (accEntry (BuildHNk 2 0 1 1) 0 1) :=
  ⟨by norm_num, by decide, by decide,
    BuildHNk_hermitian 2 0 1 1 (by norm_num) 0 1 (by decide) (by decide)⟩
